import Mathlib

/-!
Verification of the `arg_split` tokenizer.

The Python module `arg_split.py` splits a line into words, honoring
double-quote grouping and backslash escaping.  Strings are embedded as
`List Char`, in-place mutation of the result list is embedded by threading
the list through the state functions, and the `while` loop of `split` is
embedded as a fuel-indexed recursion (`splitLoop`); the fuel bound
`2 * length + 1` is proven sufficient below, so the `Option.getD` default
in `split` is dead code.
-/

/-- Model of Python `str.isspace` on a single character: true exactly for the
characters Python classifies as whitespace (ASCII whitespace, the C1 range
`\x1c`-`\x1f`, NEL, NBSP and the Unicode space/line/paragraph separators). -/
def str_isspace (c : Char) : Bool :=
  c = ' ' || c = '\t' || c = '\n' || c = '\x0b' || c = '\x0c' || c = '\r' ||
  (0x1c ≤ c.toNat && c.toNat ≤ 0x1f) || c = '\x85' || c = '\xa0' ||
  c.toNat = 0x1680 || (0x2000 ≤ c.toNat && c.toNat ≤ 0x200a) ||
  c.toNat = 0x2028 || c.toNat = 0x2029 || c.toNat = 0x202f ||
  c.toNat = 0x205f || c.toNat = 0x3000

/-- The three DFA states of the tokenizer (`_State` in the source). -/
inductive _State where
  | SPACE
  | WORD
  | QUOTES
deriving DecidableEq, Repr

/-- The error taxonomy of the splitter.  Each constructor corresponds to one
distinct `raise` site (with its distinct message) in the source:
`invalidAcceptError c i` is the `InvalidAcceptError` of `_accept_word_char`
(the spec's `UnexpectedQuoteInWord`), `quoteErrorNoSpace` is the `QuoteError`
"A space must follow quotes..." (the spec's `MissingSpaceAfterQuote`),
`quoteErrorNotClosed` is the `QuoteError` "Quote was not closed." (the spec's
`UnterminatedQuote`), `escapeErrorIllegal c i` is the `EscapeError`
"Cannot escape ..." (the spec's `IllegalEscape(char, pos)`), and
`escapeErrorDangling i` is the `EscapeError` "Invalid character ..." (the
spec's `DanglingEscape(pos)`).  The payloads are the values interpolated into
the Python messages. -/
inductive SplitStringError where
  | invalidAcceptError (c : Char) (i : Nat)
  | quoteErrorNoSpace
  | quoteErrorNotClosed
  | escapeErrorIllegal (c : Char) (i : Nat)
  | escapeErrorDangling (i : Nat)
deriving DecidableEq, Repr

/-- `string[i]` of Python.  All reachable accesses are in bounds (the scan
loop runs while `i < len`, and the lookback/lookahead accesses are guarded),
so the default is never read on reachable states. -/
def charAt (s : List Char) (i : Nat) : Char := s.getD i (Char.ofNat 0)

/-- `_accept_word_char`: a word character is legal unless it is whitespace or
an unescaped quote (Python `i - 1 >= 0` on an `int` means `1 ≤ i`). -/
def _accept_word_char (string : List Char) (i : Nat) : Except SplitStringError Nat :=
  if str_isspace (charAt string i) ∨
      (charAt string i = '"' ∧ ¬(1 ≤ i ∧ charAt string (i - 1) = '\\')) then
    .error (.invalidAcceptError (charAt string i) i)
  else
    .ok (i + 1)

/-- `_accept_space_char` (present in the source, unused by `split`). -/
def _accept_space_char (string : List Char) (i : Nat) : Except SplitStringError Nat :=
  if ¬ str_isspace (charAt string i) then
    .error (.invalidAcceptError (charAt string i) i)
  else
    .ok (i + 1)

/-- First index `k` with `l.get k = c`, as an offset into `l`. -/
def findChar (c : Char) : List Char → Option Nat
  | [] => none
  | x :: xs => if x = c then some 0 else (findChar c xs).map (· + 1)

/-- Python `word.find(c, s)`: least index `≥ s` holding `c` (`none` for -1). -/
def strFind (word : List Char) (c : Char) (s : Nat) : Option Nat :=
  (findChar c (word.drop s)).map (· + s)

/-- The `while backslash_loc != -1` loop of `_make_word`, with the current
(partially collapsed) word and the found backslash location as state.  Fuel
only limits the number of iterations; each iteration shortens the word by one
character, so `word.length + 1` is enough (proven below). -/
def _make_word_loop (b0 : Nat) :
    Nat → List Char → Option Nat → Option (Except SplitStringError (List Char))
  | _, word, none => some (.ok word)
  | 0, _, some _ => none
  | fuel + 1, word, some loc =>
    if loc + 1 < word.length then
      let next_char := charAt word (loc + 1)
      if next_char = '\\' then
        _make_word_loop b0 fuel (word.eraseIdx loc) (strFind (word.eraseIdx loc) '\\' (loc + 1))
      else if next_char = '"' then
        _make_word_loop b0 fuel (word.eraseIdx loc) (strFind (word.eraseIdx loc) '\\' loc)
      else
        some (.error (.escapeErrorIllegal next_char (b0 + (loc + 1))))
    else
      some (.error (.escapeErrorDangling (b0 + loc)))

/-- `_make_word(string, begin, end)`: slice `string[begin:end]`, then collapse
escape pairs.  The fuel default is dead (sufficiency proven below). -/
def _make_word (string : List Char) (b0 e : Nat) : Except SplitStringError (List Char) :=
  let word := (string.take e).drop b0
  (_make_word_loop b0 (word.length + 1) word (strFind word '\\' 0)).getD
    (.error (.escapeErrorDangling 0))

/-- `_process_space_state(string, i)`. -/
def _process_space_state (string : List Char) (i : Nat) : _State × Nat :=
  if charAt string i = '"' then (.QUOTES, i + 1)
  else if ¬ str_isspace (charAt string i) then (.WORD, i)
  else (.SPACE, i + 1)

/-- `_process_word_state(string, i, begin_word, result)`.  The in-place
`result.append` of the source is embedded by returning the updated list. -/
def _process_word_state (string : List Char) (i : Nat) (begin_word : Option Nat)
    (result : List (List Char)) :
    Except SplitStringError (_State × Nat × Option Nat × List (List Char)) :=
  match begin_word with
  | none => (_accept_word_char string i).map (fun i2 => (.WORD, i2, some i, result))
  | some b0 =>
    if str_isspace (charAt string i) then
      (_make_word string b0 i).map (fun word => (.SPACE, i, none, result ++ [word]))
    else
      (_accept_word_char string i).map (fun i2 => (.WORD, i2, some b0, result))

/-- `_process_quote_state(string, i, begin_word, result)`. -/
def _process_quote_state (string : List Char) (i : Nat) (begin_word : Option Nat)
    (result : List (List Char)) :
    Except SplitStringError (_State × Nat × Option Nat × List (List Char)) :=
  match begin_word with
  | none =>
    if charAt string i = '"' then
      if i + 1 < string.length ∧ ¬ str_isspace (charAt string (i + 1)) then
        .error .quoteErrorNoSpace
      else
        .ok (.SPACE, i + 1, none, result ++ [[]])
    else
      .ok (.QUOTES, i + 1, some i, result)
  | some b0 =>
    if charAt string i = '"' ∧ ¬(1 ≤ i ∧ charAt string (i - 1) = '\\') then
      (_make_word string b0 i).bind (fun word =>
        if i + 1 < string.length ∧ ¬ str_isspace (charAt string (i + 1)) then
          .error .quoteErrorNoSpace
        else
          .ok (.SPACE, i + 1, none, result ++ [word]))
    else
      .ok (.QUOTES, i + 1, some b0, result)

deriving instance DecidableEq for Except

/-- The mutable locals of one `split` call: current state, cursor, pending
span start, and accumulated result. -/
structure Config where
  state : _State
  i : Nat
  begin_word : Option Nat
  result : List (List Char)
deriving DecidableEq, Repr

/-- One iteration of the `while` loop body of `split` (assuming
`c.i < string.length`): dispatch on the state. -/
def splitStep (string : List Char) (c : Config) : Except SplitStringError Config :=
  match c.state with
  | .SPACE =>
    let r := _process_space_state string c.i
    .ok ⟨r.1, r.2, c.begin_word, c.result⟩
  | .WORD =>
    (_process_word_state string c.i c.begin_word c.result).map
      (fun r => ⟨r.1, r.2.1, r.2.2.1, r.2.2.2⟩)
  | .QUOTES =>
    (_process_quote_state string c.i c.begin_word c.result).map
      (fun r => ⟨r.1, r.2.1, r.2.2.1, r.2.2.2⟩)

/-- The code after the scan loop of `split`: reject a still-open quote, then
flush a pending word span. -/
def _split_finish (string : List Char) (c : Config) :
    Except SplitStringError (List (List Char)) :=
  if c.state = .QUOTES then .error .quoteErrorNotClosed
  else
    match c.begin_word with
    | some b0 => (_make_word string b0 c.i).map (fun word => c.result ++ [word])
    | none => .ok c.result

/-- The `while i < len(string)` loop of `split`, fuel-indexed.  `none` means
the fuel ran out before the loop exited.  One iteration of this loop is
exactly `splitStep` (see `splitLoop_succ_of_lt` below); the body is spelled
out with explicit tuple matches so that concrete inputs evaluate without
re-computing intermediate states. -/
def splitLoop (string : List Char) (fuel : Nat) (c : Config) :
    Option (Except SplitStringError (List (List Char))) :=
  if c.i < string.length then
    match fuel with
    | 0 => none
    | fuel2 + 1 =>
      match c with
      | ⟨.SPACE, i, b, res⟩ =>
        match _process_space_state string i with
        | (st2, i2) => splitLoop string fuel2 ⟨st2, i2, b, res⟩
      | ⟨.WORD, i, b, res⟩ =>
        match _process_word_state string i b res with
        | .error e => some (.error e)
        | .ok (st2, i2, b2, res2) => splitLoop string fuel2 ⟨st2, i2, b2, res2⟩
      | ⟨.QUOTES, i, b, res⟩ =>
        match _process_quote_state string i b res with
        | .error e => some (.error e)
        | .ok (st2, i2, b2, res2) => splitLoop string fuel2 ⟨st2, i2, b2, res2⟩
  else
    some (_split_finish string c)

/-- The initial locals of `split`. -/
def initConfig : Config := ⟨.SPACE, 0, none, []⟩

/-- `split(string)`.  The fuel `2 * length + 1` is proven sufficient below
(the loop decreases the measure `2 * (length - i) + delta` every iteration),
so the `getD` default is unreachable. -/
def split (string : List Char) : Except SplitStringError (List (List Char)) :=
  (splitLoop string (2 * string.length + 1) initConfig).getD (.error .quoteErrorNotClosed)

/-- The two escape-error kinds of the spec's Unescaper (positions erased). -/
inductive EscapeKind where
  | illegal (c : Char)
  | dangling
deriving DecidableEq, Repr

/-- The escape-error kind carried by a `SplitStringError`, if any. -/
def escKindOf : SplitStringError → Option EscapeKind
  | .escapeErrorIllegal c _ => some (.illegal c)
  | .escapeErrorDangling _ => some .dangling
  | _ => none

/-- The Unescaper transform as the spec describes it (§4.2), transcribed
literally: scan left to right; backslash-backslash gives one backslash,
advancing past both; backslash-quote gives one quote, advancing past both;
backslash before anything else is `IllegalEscape`; a trailing backslash is
`DanglingEscape`; every other character is copied through.  This is the
specification-side definition which `_make_word` is compared against. -/
def unescape_spec : List Char → Except EscapeKind (List Char)
  | [] => .ok []
  | c :: rest =>
    if c = '\\' then
      match rest with
      | [] => .error .dangling
      | d :: rest2 =>
        if d = '\\' ∨ d = '"' then (fun t => d :: t) <$> unescape_spec rest2
        else .error (.illegal d)
    else
      (fun t => c :: t) <$> unescape_spec rest

/-- Joining a list of words with single spaces. -/
def join_words : List (List Char) → List Char
  | [] => []
  | w :: ws =>
    match ws with
    | [] => w
    | _ :: _ => w ++ ' ' :: join_words ws

/-- A character that is legal inside a plain word: not whitespace, not a
quote, not a backslash. -/
def plain_char (c : Char) : Prop :=
  str_isspace c = false ∧ c ≠ '"' ∧ c ≠ '\\'

/-- The extra termination credit of a configuration: 1 exactly for the two
"stay at `i`" transitions (Space-to-Word dispatch and Word-to-Space emit). -/
def loopDelta (string : List Char) (st : _State) (i : Nat) : Nat :=
  match st with
  | .SPACE => if ¬ str_isspace (charAt string i) = true ∧ charAt string i ≠ '"' then 1 else 0
  | .WORD => if str_isspace (charAt string i) = true then 1 else 0
  | .QUOTES => 0

/-- Termination measure for the scan loop: strictly decreases at every
iteration. -/
def loopFuel (string : List Char) (c : Config) : Nat :=
  2 * (string.length - c.i) + loopDelta string c.state c.i

/-- One loop iteration as a relation: the cursor is inside the input and the
step succeeds. -/
def StepRel (string : List Char) (a b : Config) : Prop :=
  a.i < string.length ∧ splitStep string a = .ok b

/-- Configurations visited by the scan loop (top-of-loop points). -/
def Reaches (string : List Char) : Config → Config → Prop :=
  Relation.ReflTransGen (StepRel string)

/-- The pending-span invariant of §3: `begin_word` is never set in the Space
state, and whenever it is set the state is Word or Quotes and at least one
character of the span has been consumed (`b0 < i`). -/
def split_invariant (c : Config) : Prop :=
  (c.state = .SPACE → c.begin_word = none) ∧
  (∀ b0, c.begin_word = some b0 → (c.state = .WORD ∨ c.state = .QUOTES) ∧ b0 < c.i)

example : split (("the quick brown fox").toList) =
    .ok [("the").toList, ("quick").toList, ("brown").toList, ("fox").toList] := by decide

example : split (("the quick \"brown fox\"").toList) =
    .ok [("the").toList, ("quick").toList, ("brown fox").toList] := by decide

example : split (("the \"\" quick").toList) =
    .ok [("the").toList, [], ("quick").toList] := by decide

/-! ### Basic properties of the scan loop -/

theorem splitLoop_exit {string : List Char} {fuel : Nat} {c : Config}
    (h : ¬ c.i < string.length) :
    splitLoop string fuel c = some (_split_finish string c) := by
  rw [splitLoop.eq_def]
  simp [h]

theorem splitLoop_succ_of_lt {string : List Char} {fuel : Nat} {c : Config}
    (h : c.i < string.length) :
    splitLoop string (fuel + 1) c =
      match splitStep string c with
      | .error e => some (.error e)
      | .ok c2 => splitLoop string fuel c2 := by
  obtain ⟨st, i, b, res⟩ := c
  cases st
  · rw [splitLoop.eq_def]
    rcases h2 : _process_space_state string i with ⟨st2, i2⟩
    simp [h, splitStep, h2]
  · rw [splitLoop.eq_def]
    rcases h2 : _process_word_state string i b res with e | ⟨st2, i2, b2, res2⟩ <;>
      simp [h, splitStep, h2, Except.map]
  · rw [splitLoop.eq_def]
    rcases h2 : _process_quote_state string i b res with e | ⟨st2, i2, b2, res2⟩ <;>
      simp [h, splitStep, h2, Except.map]

theorem splitLoop_of_step {string : List Char} {fuel : Nat} {a b : Config}
    (h : StepRel string a b) :
    splitLoop string (fuel + 1) a = splitLoop string fuel b := by
  rw [splitLoop_succ_of_lt h.1, h.2]

theorem splitLoop_zero_none {string : List Char} {c : Config}
    (h : c.i < string.length) : splitLoop string 0 c = none := by
  rw [splitLoop.eq_def]
  simp [h]

theorem splitLoop_mono {string : List Char} {fuel : Nat} {c : Config} {r : Except SplitStringError (List (List Char))}
    (h : splitLoop string fuel c = some r) :
    ∀ fuel2, fuel ≤ fuel2 → splitLoop string fuel2 c = some r := by
  induction fuel generalizing c with
  | zero =>
    intro fuel2 _
    by_cases hi : c.i < string.length
    · rw [splitLoop_zero_none hi] at h
      exact absurd h (by simp)
    · rw [splitLoop_exit hi] at h ⊢
      exact h
  | succ f ih =>
    intro fuel2 hle
    by_cases hi : c.i < string.length
    · obtain ⟨f2, rfl⟩ : ∃ f2, fuel2 = f2 + 1 := ⟨fuel2 - 1, by omega⟩
      rw [splitLoop_succ_of_lt hi] at h ⊢
      rcases h2 : splitStep string c with e | c2 <;> rw [h2] at h <;> simp at h ⊢
      · exact h
      · exact ih h f2 (by omega)
    · rw [splitLoop_exit hi] at h ⊢
      exact h

/-! ### Characterizations of the per-state transition functions -/

theorem process_space_quote {string : List Char} {i : Nat}
    (hq : charAt string i = '"') :
    _process_space_state string i = (.QUOTES, i + 1) := by
  simp [_process_space_state, hq]

theorem process_space_word {string : List Char} {i : Nat}
    (hq : charAt string i ≠ '"') (hs : str_isspace (charAt string i) = false) :
    _process_space_state string i = (.WORD, i) := by
  simp [_process_space_state, hq, hs]

theorem process_space_space {string : List Char} {i : Nat}
    (hq : charAt string i ≠ '"') (hs : str_isspace (charAt string i) = true) :
    _process_space_state string i = (.SPACE, i + 1) := by
  simp [_process_space_state, hq, hs]

theorem accept_ok {string : List Char} {i : Nat}
    (hs : str_isspace (charAt string i) = false)
    (hq : charAt string i = '"' → 1 ≤ i ∧ charAt string (i - 1) = '\\') :
    _accept_word_char string i = .ok (i + 1) := by
  unfold _accept_word_char
  rw [if_neg]
  push_neg
  refine ⟨by simp [hs], ?_⟩
  intro hc
  simpa [hc] using hq hc

theorem accept_inv {string : List Char} {i j : Nat}
    (h : _accept_word_char string i = .ok j) : j = i + 1 := by
  unfold _accept_word_char at h
  split at h <;> simp at h
  omega

theorem process_word_none {string : List Char} {i : Nat} {res : List (List Char)} :
    _process_word_state string i none res =
      (_accept_word_char string i).map (fun i2 => (.WORD, i2, some i, res)) := rfl

theorem process_word_some_space {string : List Char} {i b0 : Nat} {res : List (List Char)}
    (hs : str_isspace (charAt string i) = true) :
    _process_word_state string i (some b0) res =
      (_make_word string b0 i).map (fun word => (.SPACE, i, none, res ++ [word])) := by
  simp [_process_word_state, hs]

theorem process_word_some_nonspace {string : List Char} {i b0 : Nat} {res : List (List Char)}
    (hs : str_isspace (charAt string i) = false) :
    _process_word_state string i (some b0) res =
      (_accept_word_char string i).map (fun i2 => (.WORD, i2, some b0, res)) := by
  simp [_process_word_state, hs]

theorem process_quote_none_quote {string : List Char} {i : Nat} {res : List (List Char)}
    (hq : charAt string i = '"') :
    _process_quote_state string i none res =
      if i + 1 < string.length ∧ ¬ str_isspace (charAt string (i + 1)) then
        .error .quoteErrorNoSpace
      else .ok (.SPACE, i + 1, none, res ++ [[]]) := by
  simp [_process_quote_state, hq]

theorem process_quote_none_open {string : List Char} {i : Nat} {res : List (List Char)}
    (hq : charAt string i ≠ '"') :
    _process_quote_state string i none res = .ok (.QUOTES, i + 1, some i, res) := by
  simp [_process_quote_state, hq]

theorem process_quote_close {string : List Char} {i b0 : Nat} {res : List (List Char)}
    (hq : charAt string i = '"') (he : ¬(1 ≤ i ∧ charAt string (i - 1) = '\\')) :
    _process_quote_state string i (some b0) res =
      (_make_word string b0 i).bind (fun word =>
        if i + 1 < string.length ∧ ¬ str_isspace (charAt string (i + 1)) then
          .error .quoteErrorNoSpace
        else .ok (.SPACE, i + 1, none, res ++ [word])) := by
  simp only [_process_quote_state]
  rw [if_pos ⟨hq, he⟩]

theorem process_quote_continue {string : List Char} {i b0 : Nat} {res : List (List Char)}
    (h : ¬(charAt string i = '"' ∧ ¬(1 ≤ i ∧ charAt string (i - 1) = '\\'))) :
    _process_quote_state string i (some b0) res = .ok (.QUOTES, i + 1, some b0, res) := by
  simp only [_process_quote_state]
  rw [if_neg h]

theorem process_word_i_inv {string : List Char} {i : Nat} {b : Option Nat}
    {res : List (List Char)} {st2 : _State} {i2 : Nat} {b2 : Option Nat}
    {res2 : List (List Char)}
    (h : _process_word_state string i b res = .ok (st2, i2, b2, res2)) :
    (st2 = .WORD ∧ i2 = i + 1) ∨
      (st2 = .SPACE ∧ i2 = i ∧ str_isspace (charAt string i) = true) := by
  cases b with
  | none =>
    rw [process_word_none] at h
    rcases ha : _accept_word_char string i with e | j <;> rw [ha] at h <;>
      simp [Except.map] at h
    exact .inl ⟨h.1.symm, by rw [← h.2.1, accept_inv ha]⟩
  | some b0 =>
    by_cases hs : str_isspace (charAt string i) = true
    · rw [process_word_some_space hs] at h
      rcases hm : _make_word string b0 i with e | w <;> rw [hm] at h <;>
        simp [Except.map] at h
      exact .inr ⟨h.1.symm, h.2.1.symm, hs⟩
    · rw [process_word_some_nonspace (by simpa using hs)] at h
      rcases ha : _accept_word_char string i with e | j <;> rw [ha] at h <;>
        simp [Except.map] at h
      exact .inl ⟨h.1.symm, by rw [← h.2.1, accept_inv ha]⟩

theorem process_quote_i_inv {string : List Char} {i : Nat} {b : Option Nat}
    {res : List (List Char)} {st2 : _State} {i2 : Nat} {b2 : Option Nat}
    {res2 : List (List Char)}
    (h : _process_quote_state string i b res = .ok (st2, i2, b2, res2)) :
    i2 = i + 1 := by
  cases b with
  | none =>
    by_cases hq : charAt string i = '"'
    · rw [process_quote_none_quote hq] at h
      split at h <;> simp at h
      exact h.2.1.symm
    · rw [process_quote_none_open hq] at h
      simp at h
      exact h.2.1.symm
  | some b0 =>
    by_cases hc : charAt string i = '"' ∧ ¬(1 ≤ i ∧ charAt string (i - 1) = '\\')
    · rw [process_quote_close hc.1 (by exact fun hh => hc.2 hh)] at h
      rcases hm : _make_word string b0 i with e | w <;> rw [hm] at h <;>
        simp [Except.bind] at h
      split at h <;> simp at h
      exact h.2.1.symm
    · rw [process_quote_continue hc] at h
      simp at h
      exact h.2.1.symm

/-! ### Termination: the loop measure decreases at every step -/

theorem loopDelta_le_one (string : List Char) (st : _State) (i : Nat) :
    loopDelta string st i ≤ 1 := by
  cases st <;> simp [loopDelta] <;> split <;> omega

theorem loopDelta_SPACE_space {string : List Char} {i : Nat}
    (hs : str_isspace (charAt string i) = true) : loopDelta string .SPACE i = 0 := by
  simp [loopDelta, hs]

theorem loopDelta_SPACE_quote {string : List Char} {i : Nat}
    (hq : charAt string i = '"') : loopDelta string .SPACE i = 0 := by
  simp [loopDelta, hq]

theorem loopDelta_SPACE_word {string : List Char} {i : Nat}
    (hq : charAt string i ≠ '"') (hs : str_isspace (charAt string i) = false) :
    loopDelta string .SPACE i = 1 := by
  simp [loopDelta, hq, hs]

theorem loopDelta_WORD_space {string : List Char} {i : Nat}
    (hs : str_isspace (charAt string i) = true) : loopDelta string .WORD i = 1 := by
  simp [loopDelta, hs]

theorem loopDelta_WORD_nonspace {string : List Char} {i : Nat}
    (hs : str_isspace (charAt string i) = false) : loopDelta string .WORD i = 0 := by
  simp [loopDelta, hs]

theorem splitStep_SPACE {string : List Char} {i : Nat} {b : Option Nat}
    {res : List (List Char)} {c2 : Config}
    (h : splitStep string ⟨.SPACE, i, b, res⟩ = .ok c2) :
    c2 = ⟨(_process_space_state string i).1, (_process_space_state string i).2, b, res⟩ := by
  simp only [splitStep] at h
  exact ((Except.ok.injEq _ _).mp h).symm

theorem splitStep_WORD {string : List Char} {i : Nat} {b : Option Nat}
    {res : List (List Char)} {c2 : Config}
    (h : splitStep string ⟨.WORD, i, b, res⟩ = .ok c2) :
    _process_word_state string i b res = .ok (c2.state, c2.i, c2.begin_word, c2.result) := by
  simp only [splitStep] at h
  rcases hp : _process_word_state string i b res with e | ⟨st2, i2, b2, res2⟩ <;>
    rw [hp] at h <;> simp [Except.map] at h
  rw [← h]

theorem splitStep_QUOTES {string : List Char} {i : Nat} {b : Option Nat}
    {res : List (List Char)} {c2 : Config}
    (h : splitStep string ⟨.QUOTES, i, b, res⟩ = .ok c2) :
    _process_quote_state string i b res = .ok (c2.state, c2.i, c2.begin_word, c2.result) := by
  simp only [splitStep] at h
  rcases hp : _process_quote_state string i b res with e | ⟨st2, i2, b2, res2⟩ <;>
    rw [hp] at h <;> simp [Except.map] at h
  rw [← h]

theorem splitStep_decrease {string : List Char} {c c2 : Config}
    (hi : c.i < string.length) (h : splitStep string c = .ok c2) :
    loopFuel string c2 < loopFuel string c := by
  obtain ⟨st, i, b, res⟩ := c
  simp only at hi
  have hd2 := loopDelta_le_one string c2.state c2.i
  cases st
  · -- SPACE
    have hc2 := splitStep_SPACE h
    by_cases hq : charAt string i = '"'
    · rw [process_space_quote hq] at hc2
      subst hc2
      simp only [loopFuel, loopDelta_SPACE_quote hq] at *
      omega
    · by_cases hs : str_isspace (charAt string i) = true
      · rw [process_space_space hq hs] at hc2
        subst hc2
        simp only [loopFuel, loopDelta_SPACE_space hs] at *
        omega
      · rw [process_space_word hq (by simpa using hs)] at hc2
        subst hc2
        simp only [loopFuel, loopDelta_SPACE_word hq (by simpa using hs),
          loopDelta_WORD_nonspace (by simpa using hs)] at *
        omega
  · -- WORD
    have hp := splitStep_WORD h
    rcases process_word_i_inv hp with ⟨hst, hi2⟩ | ⟨hst, hi2, hs⟩
    · simp only [loopFuel, hi2] at *
      omega
    · simp only [loopFuel, hi2, hst, loopDelta_WORD_space hs] at *
      rw [loopDelta_SPACE_space hs]
      omega
  · -- QUOTES
    have hp := splitStep_QUOTES h
    have hi2 := process_quote_i_inv hp
    simp only [loopFuel, hi2, loopDelta] at *
    omega

theorem splitLoop_isSome {string : List Char} :
    ∀ (fuel : Nat) (c : Config), loopFuel string c ≤ fuel →
      (splitLoop string fuel c).isSome := by
  intro fuel
  induction fuel with
  | zero =>
    intro c hc
    have hi : ¬ c.i < string.length := by
      simp only [loopFuel] at hc
      omega
    rw [splitLoop_exit hi]
    simp
  | succ f ih =>
    intro c hc
    by_cases hi : c.i < string.length
    · rw [splitLoop_succ_of_lt hi]
      rcases h2 : splitStep string c with e | c2
      · simp
      · simpa using ih c2 (by have := splitStep_decrease hi h2; omega)
    · rw [splitLoop_exit hi]
      simp

theorem splitLoop_some_unique {string : List Char} {f1 f2 : Nat} {c : Config}
    {r1 r2 : Except SplitStringError (List (List Char))}
    (h1 : splitLoop string f1 c = some r1) (h2 : splitLoop string f2 c = some r2) :
    r1 = r2 := by
  rcases Nat.le_total f1 f2 with hle | hle
  · have := splitLoop_mono h1 f2 hle
    rw [this] at h2
    exact (Option.some.injEq _ _).mp h2
  · have := splitLoop_mono h2 f1 hle
    rw [this] at h1
    exact ((Option.some.injEq _ _).mp h1).symm

theorem initFuel_enough (string : List Char) :
    loopFuel string initConfig ≤ 2 * string.length + 1 := by
  have := loopDelta_le_one string .SPACE 0
  simp only [loopFuel, initConfig]
  omega

/-- `split` is determined by any successful run of the loop, whatever the
fuel: the standard bound always yields an answer, and answers are unique. -/
theorem split_eq_of_loop {string : List Char} {fuel : Nat}
    {r : Except SplitStringError (List (List Char))}
    (h : splitLoop string fuel initConfig = some r) : split string = r := by
  have hs := @splitLoop_isSome string (2 * string.length + 1) initConfig
    (initFuel_enough string)
  rcases ho : splitLoop string (2 * string.length + 1) initConfig with _ | r2
  · rw [ho] at hs
    simp at hs
  · have := splitLoop_some_unique h ho
    subst this
    simp [split, ho]

/-! ### The reachable-configuration relation -/

theorem splitStep_i_mono {string : List Char} {c c2 : Config}
    (h : splitStep string c = .ok c2) : c.i ≤ c2.i := by
  obtain ⟨st, i, b, res⟩ := c
  cases st
  · have hc2 := splitStep_SPACE h
    subst hc2
    simp only [_process_space_state]
    split <;> simp <;> split <;> simp
  · have hp := splitStep_WORD h
    rcases process_word_i_inv hp with ⟨_, hi2⟩ | ⟨_, hi2, _⟩ <;> simp <;> omega
  · have hp := splitStep_QUOTES h
    have hi2 := process_quote_i_inv hp
    simp
    omega

theorem reaches_i_mono {string : List Char} {a b : Config}
    (h : Reaches string a b) : a.i ≤ b.i := by
  induction h with
  | refl => exact le_rfl
  | tail _ hstep ih => exact le_trans ih (splitStep_i_mono hstep.2)

theorem step_preserves_inv {string : List Char} {c c2 : Config}
    (hinv : split_invariant c) (h : splitStep string c = .ok c2) :
    split_invariant c2 := by
  obtain ⟨st, i, b, res⟩ := c
  cases st
  · -- SPACE: begin_word is none and is passed through
    have hb : b = none := hinv.1 rfl
    subst hb
    have hc2 := splitStep_SPACE h
    subst hc2
    constructor
    · intro _
      rfl
    · intro b0 hb0
      simp at hb0
  · -- WORD
    have hp := splitStep_WORD h
    obtain ⟨st2, i2, b2, res2⟩ := c2
    simp only at hp
    cases b with
    | none =>
      rw [process_word_none] at hp
      rcases ha : _accept_word_char string i with e | j <;> rw [ha] at hp <;>
        simp [Except.map] at hp
      obtain ⟨h1, h2, h3, h4⟩ := hp
      have hj := accept_inv ha
      constructor
      · intro hsp
        rw [← h1] at hsp
        exact absurd hsp (by simp)
      · intro b0 hb0
        rw [← h3] at hb0
        simp at hb0
        subst hb0
        exact ⟨.inl h1.symm, by simp; omega⟩
    | some b0 =>
      by_cases hs : str_isspace (charAt string i) = true
      · rw [process_word_some_space hs] at hp
        rcases hm : _make_word string b0 i with e | w <;> rw [hm] at hp <;>
          simp [Except.map] at hp
        obtain ⟨h1, h2, h3, h4⟩ := hp
        constructor
        · intro _
          exact h3.symm
        · intro b1 hb1
          rw [← h3] at hb1
          simp at hb1
      · rw [process_word_some_nonspace (by simpa using hs)] at hp
        rcases ha : _accept_word_char string i with e | j <;> rw [ha] at hp <;>
          simp [Except.map] at hp
        obtain ⟨h1, h2, h3, h4⟩ := hp
        have hj := accept_inv ha
        have hb0 : b0 < i := (hinv.2 b0 rfl).2
        constructor
        · intro hsp
          rw [← h1] at hsp
          exact absurd hsp (by simp)
        · intro b1 hb1
          rw [← h3] at hb1
          simp at hb1
          subst hb1
          exact ⟨.inl h1.symm, by simp; omega⟩
  · -- QUOTES
    have hp := splitStep_QUOTES h
    obtain ⟨st2, i2, b2, res2⟩ := c2
    simp only at hp
    cases b with
    | none =>
      by_cases hq : charAt string i = '"'
      · rw [process_quote_none_quote hq] at hp
        split at hp <;> simp at hp
        obtain ⟨h1, h2, h3, h4⟩ := hp
        constructor
        · intro _
          exact h3.symm
        · intro b1 hb1
          rw [← h3] at hb1
          simp at hb1
      · rw [process_quote_none_open hq] at hp
        simp at hp
        obtain ⟨h1, h2, h3, h4⟩ := hp
        constructor
        · intro hsp
          rw [← h1] at hsp
          exact absurd hsp (by simp)
        · intro b1 hb1
          rw [← h3] at hb1
          simp at hb1
          subst hb1
          exact ⟨.inr h1.symm, by simp; omega⟩
    | some b0 =>
      have hb0 : b0 < i := (hinv.2 b0 rfl).2
      by_cases hc : charAt string i = '"' ∧ ¬(1 ≤ i ∧ charAt string (i - 1) = '\\')
      · rw [process_quote_close hc.1 hc.2] at hp
        rcases hm : _make_word string b0 i with e | w <;> rw [hm] at hp <;>
          simp [Except.bind] at hp
        split at hp <;> simp at hp
        obtain ⟨h1, h2, h3, h4⟩ := hp
        constructor
        · intro _
          exact h3.symm
        · intro b1 hb1
          rw [← h3] at hb1
          simp at hb1
      · rw [process_quote_continue hc] at hp
        simp at hp
        obtain ⟨h1, h2, h3, h4⟩ := hp
        constructor
        · intro hsp
          rw [← h1] at hsp
          exact absurd hsp (by simp)
        · intro b1 hb1
          rw [← h3] at hb1
          simp at hb1
          subst hb1
          exact ⟨.inr h1.symm, by simp; omega⟩

theorem reaches_invariant {string : List Char} {c : Config}
    (h : Reaches string initConfig c) : split_invariant c := by
  induction h with
  | refl =>
    constructor
    · intro _
      rfl
    · intro b0 hb0
      simp [initConfig] at hb0
  | tail _ hstep ih => exact step_preserves_inv ih hstep.2

theorem reaches_run_exists {string : List Char} {a c : Config}
    (h : Reaches string a c) :
    ∀ {fuel : Nat} {r : Except SplitStringError (List (List Char))},
      splitLoop string fuel a = some r → ∃ f2 ≤ fuel, splitLoop string f2 c = some r := by
  induction h using Relation.ReflTransGen.head_induction_on with
  | refl => exact fun hr => ⟨_, le_rfl, hr⟩
  | head hstep _ ih =>
    intro fuel r hr
    match fuel with
    | 0 =>
      rw [splitLoop_zero_none hstep.1] at hr
      exact absurd hr (by simp)
    | f + 1 =>
      rw [splitLoop_of_step hstep] at hr
      obtain ⟨f2, hf2, hrun⟩ := ih hr
      exact ⟨f2, by omega, hrun⟩

theorem reaches_run_prepend {string : List Char} {a c : Config}
    (h : Reaches string a c) :
    ∀ {fuel : Nat} {r : Except SplitStringError (List (List Char))},
      splitLoop string fuel c = some r → ∃ f2, splitLoop string f2 a = some r := by
  induction h using Relation.ReflTransGen.head_induction_on with
  | refl => exact fun hr => ⟨_, hr⟩
  | head hstep _ ih =>
    intro fuel r hr
    obtain ⟨f2, hrun⟩ := ih hr
    exact ⟨f2 + 1, by rw [splitLoop_of_step hstep]; exact hrun⟩

/-! ### Character search and list positioning helpers -/

theorem charAt_cons_succ (x : Char) (l : List Char) (i : Nat) :
    charAt (x :: l) (i + 1) = charAt l i := rfl

theorem charAt_append_right : ∀ (A B : List Char) (i : Nat),
    charAt (A ++ B) (A.length + i) = charAt B i := by
  intro A
  induction A with
  | nil => simp
  | cons x l ih =>
    intro B i
    have h1 : x :: l ++ B = x :: (l ++ B) := rfl
    rw [h1]
    simp only [List.length_cons]
    have h2 : l.length + 1 + i = (l.length + i) + 1 := by omega
    rw [h2, charAt_cons_succ]
    exact ih B i

theorem charAt_append_left : ∀ (A B : List Char) (i : Nat), i < A.length →
    charAt (A ++ B) i = charAt A i := by
  intro A
  induction A with
  | nil => simp
  | cons x l ih =>
    intro B i hi
    cases i with
    | zero => rfl
    | succ j =>
      have : x :: l ++ B = x :: (l ++ B) := rfl
      rw [this, charAt_cons_succ, charAt_cons_succ]
      exact ih B j (by simpa using hi)

theorem findChar_none {c : Char} : ∀ {l : List Char},
    findChar c l = none ↔ ∀ x ∈ l, x ≠ c := by
  intro l
  induction l with
  | nil => simp [findChar]
  | cons x xs ih =>
    by_cases hx : x = c
    · simp [findChar, hx]
    · simp [findChar, hx, ih]

theorem findChar_some {c : Char} : ∀ {l : List Char} {k : Nat},
    findChar c l = some k →
      ∃ pre suf, l = pre ++ c :: suf ∧ pre.length = k ∧ ∀ x ∈ pre, x ≠ c := by
  intro l
  induction l with
  | nil => intro k h; simp [findChar] at h
  | cons x xs ih =>
    intro k h
    by_cases hx : x = c
    · subst hx
      simp [findChar] at h
      exact ⟨[], xs, by simp, by simp [← h], by simp⟩
    · simp [findChar, hx] at h
      rcases h with ⟨k2, hk2, rfl⟩
      obtain ⟨pre, suf, rfl, hlen, hpre⟩ := ih hk2
      refine ⟨x :: pre, suf, by simp, by simp [hlen], ?_⟩
      intro y hy
      rcases List.mem_cons.mp hy with rfl | hy2
      · exact hx
      · exact hpre y hy2

theorem strFind_none {word : List Char} {c : Char} {s : Nat}
    (h : findChar c (word.drop s) = none) : strFind word c s = none := by
  simp [strFind, h]

theorem strFind_some {word : List Char} {c : Char} {s k : Nat}
    (h : findChar c (word.drop s) = some k) : strFind word c s = some (k + s) := by
  simp [strFind, h]

theorem eraseIdx_append_cons : ∀ (A : List Char) (x : Char) (B : List Char),
    (A ++ x :: B).eraseIdx A.length = A ++ B := by
  intro A
  induction A with
  | nil => simp [List.eraseIdx]
  | cons y l ih =>
    intro x B
    have : (y :: l ++ x :: B).eraseIdx (y :: l).length =
        y :: ((l ++ x :: B).eraseIdx l.length) := rfl
    rw [this, ih]
    rfl

/-! ### The Unescaper specification versus `_make_word` -/

theorem unescape_cons_nb {c : Char} (rest : List Char) (h : c ≠ '\\') :
    unescape_spec (c :: rest) = (fun t => c :: t) <$> unescape_spec rest := by
  rw [unescape_spec.eq_def]
  simp [h]

theorem unescape_bs_nil : unescape_spec ['\\'] = .error .dangling := rfl

theorem unescape_bs_pair {d : Char} (r2 : List Char) (h : d = '\\' ∨ d = '"') :
    unescape_spec ('\\' :: d :: r2) = (fun t => d :: t) <$> unescape_spec r2 := by
  simp [unescape_spec, h]

theorem unescape_bs_illegal {d : Char} (r2 : List Char) (h1 : d ≠ '\\') (h2 : d ≠ '"') :
    unescape_spec ('\\' :: d :: r2) = .error (.illegal d) := by
  simp [unescape_spec, h1, h2]

theorem unescape_no_bs : ∀ {l : List Char}, (∀ x ∈ l, x ≠ '\\') →
    unescape_spec l = .ok l := by
  intro l
  induction l with
  | nil => intro _; rfl
  | cons x xs ih =>
    intro h
    rw [unescape_cons_nb xs (h x (by simp)), ih (fun y hy => h y (by simp [hy]))]
    rfl

theorem unescape_append_nb : ∀ {mid : List Char} (t : List Char),
    (∀ x ∈ mid, x ≠ '\\') →
    unescape_spec (mid ++ t) = (fun u => mid ++ u) <$> unescape_spec t := by
  intro mid
  induction mid with
  | nil =>
    intro t _
    rcases h : unescape_spec t with e | u <;> simp [h, Except.map]
  | cons x xs ih =>
    intro t h
    have hx : x ≠ '\\' := h x (by simp)
    have h2 : x :: xs ++ t = x :: (xs ++ t) := rfl
    rw [h2, unescape_cons_nb (xs ++ t) hx, ih t (fun y hy => h y (by simp [hy]))]
    rcases hu : unescape_spec t with e | u <;> simp [Except.map]

theorem make_word_loop_spec :
    ∀ (fuel : Nat), ∀ (word : List Char) (s b0 : Nat), word.length < fuel →
    (_make_word_loop b0 fuel word (strFind word '\\' s)).map
        (fun r => r.mapError escKindOf) =
      some (((fun t => word.take s ++ t) <$> unescape_spec (word.drop s)).mapError some) := by
  intro fuel
  induction fuel with
  | zero => intro word s b0 h; omega
  | succ f ih =>
    intro word s b0 hlen
    rcases hf : findChar '\\' (word.drop s) with _ | k
    · -- no backslash at or after s: the loop is not entered
      rw [strFind_none hf]
      have hnb : ∀ x ∈ word.drop s, x ≠ '\\' := findChar_none.mp hf
      rw [unescape_no_bs hnb]
      simp [_make_word_loop, Except.mapError, Except.map]
    · rw [strFind_some hf]
      obtain ⟨mid, rest, hsplit, hklen, hmid⟩ := findChar_some hf
      have hslt : s < word.length := by
        by_contra hge
        rw [List.drop_eq_nil_of_le (by omega)] at hsplit
        exact absurd hsplit.symm (by simp)
      have htakelen : (word.take s).length = s := by
        simp
        omega
      have hword : word = (word.take s ++ mid) ++ '\\' :: rest := by
        conv_lhs => rw [← List.take_append_drop s word, hsplit]
        simp
      have hAlen : (word.take s ++ mid).length = s + k := by
        simp [htakelen, hklen]
      have hloc : k + s = (word.take s ++ mid).length := by omega
      cases rest with
      | nil =>
        -- dangling backslash at the very end of the word
        have hlen2 : word.length = s + k + 1 := by
          rw [hword, List.length_append, hAlen]
          simp
        have hcond : ¬ (k + s + 1 < word.length) := by omega
        rw [_make_word_loop, if_neg hcond]
        rw [hsplit, unescape_append_nb ['\\'] hmid, unescape_bs_nil]
        simp [Except.mapError, Except.map, escKindOf]
      | cons d rest2 =>
        have hlen2 : word.length = s + k + 2 + rest2.length := by
          rw [hword, List.length_append, hAlen]
          simp
          omega
        have hcond : k + s + 1 < word.length := by omega
        have hchar : charAt word (k + s + 1) = d := by
          rw [hword, hloc, charAt_append_right (word.take s ++ mid) ('\\' :: d :: rest2) 1]
          rfl
        by_cases hd : d = '\\'
        · -- collapse an escaped backslash, search resumes after it
          subst hd
          rw [_make_word_loop, if_pos hcond]
          simp only [hchar, eq_self_iff_true, if_true]
          have herase : word.eraseIdx (k + s) =
              (word.take s ++ mid) ++ '\\' :: rest2 := by
            conv_lhs => rw [hword, hloc]
            exact eraseIdx_append_cons _ '\\' _
          have herlen : (word.eraseIdx (k + s)).length < f := by
            rw [herase]
            simp [hAlen] at *
            omega
          rw [herase]
          have ih2 := ih ((word.take s ++ mid) ++ '\\' :: rest2) (k + s + 1) b0
            (by rw [← herase]; exact herlen)
          rw [ih2]
          have htk : ((word.take s ++ mid) ++ '\\' :: rest2).take (k + s + 1) =
              (word.take s ++ mid) ++ ['\\'] := by
            have h3 : (word.take s ++ mid) ++ '\\' :: rest2 =
                ((word.take s ++ mid) ++ ['\\']) ++ rest2 := by simp
            rw [h3]
            have h4 : k + s + 1 = ((word.take s ++ mid) ++ ['\\']).length := by
              simp [hAlen]
              omega
            rw [h4, List.take_left]
          have hdr : ((word.take s ++ mid) ++ '\\' :: rest2).drop (k + s + 1) = rest2 := by
            have h3 : (word.take s ++ mid) ++ '\\' :: rest2 =
                ((word.take s ++ mid) ++ ['\\']) ++ rest2 := by simp
            rw [h3]
            have h4 : k + s + 1 = ((word.take s ++ mid) ++ ['\\']).length := by
              simp [hAlen]
              omega
            rw [h4, List.drop_left]
          rw [htk, hdr, hsplit, unescape_append_nb ('\\' :: '\\' :: rest2) hmid,
            unescape_bs_pair rest2 (.inl rfl)]
          rcases hu : unescape_spec rest2 with e | u <;>
            simp [Except.map, Except.mapError]
        · by_cases hq : d = '"'
          · -- collapse an escaped quote, search resumes at the same index
            subst hq
            rw [_make_word_loop, if_pos hcond]
            simp only [hchar]
            simp only [eq_self_iff_true, if_true]
            rw [if_neg hd]
            have herase : word.eraseIdx (k + s) =
                (word.take s ++ mid) ++ '"' :: rest2 := by
              conv_lhs => rw [hword, hloc]
              exact eraseIdx_append_cons _ '\\' _
            have herlen : (word.eraseIdx (k + s)).length < f := by
              rw [herase]
              simp [hAlen] at *
              omega
            rw [herase]
            have ih2 := ih ((word.take s ++ mid) ++ '"' :: rest2) (k + s) b0
              (by rw [← herase]; exact herlen)
            rw [ih2]
            have htk : (word.take s ++ mid ++ '"' :: rest2).take (k + s) =
                word.take s ++ mid := by
              rw [show k + s = (word.take s ++ mid).length from hloc, List.take_left]
            have hdr : (word.take s ++ mid ++ '"' :: rest2).drop (k + s) =
                '"' :: rest2 := by
              rw [show k + s = (word.take s ++ mid).length from hloc, List.drop_left]
            rw [htk, hdr, unescape_cons_nb rest2 (by simp), hsplit,
              unescape_append_nb ('\\' :: '"' :: rest2) hmid,
              unescape_bs_pair rest2 (.inr rfl)]
            rcases hu : unescape_spec rest2 with e | u <;>
              simp [Except.map, Except.mapError]
          · -- illegal escape
            rw [_make_word_loop, if_pos hcond]
            simp only [hchar]
            rw [if_neg hd, if_neg hq]
            rw [hsplit, unescape_append_nb ('\\' :: d :: rest2) hmid,
              unescape_bs_illegal rest2 hd hq]
            simp [Except.map, Except.mapError, escKindOf]

/-- `_make_word` computes exactly the spec Unescaper on the raw slice
`string[b0:e]`: same decoded word on success, same error kind on failure
(`escKindOf` erases the reported positions, which claim C1 treats). -/
theorem make_word_unescape (string : List Char) (b0 e : Nat) :
    (_make_word string b0 e).mapError escKindOf =
      (unescape_spec ((string.take e).drop b0)).mapError some := by
  have h := make_word_loop_spec (((string.take e).drop b0).length + 1)
    ((string.take e).drop b0) 0 b0 (by omega)
  rcases ho : _make_word_loop b0 (((string.take e).drop b0).length + 1)
      ((string.take e).drop b0) (strFind ((string.take e).drop b0) '\\' 0) with _ | r
  · rw [ho] at h
    exact Option.noConfusion h
  · rw [ho] at h
    simp only [Option.map_some'] at h
    have hr := (Option.some.injEq _ _).mp h
    simp only [_make_word]
    rw [ho]
    simp only [Option.getD_some]
    rw [hr]
    rcases hu : unescape_spec ((string.take e).drop b0) with e2 | u <;>
      simp [hu, Except.map, Except.mapError]

/-- Successful decodes of `_make_word` depend only on the raw slice. -/
theorem make_word_ok_iff {string : List Char} {b0 e : Nat} {w : List Char} :
    _make_word string b0 e = .ok w ↔
      unescape_spec ((string.take e).drop b0) = .ok w := by
  have h := make_word_unescape string b0 e
  rcases h1 : _make_word string b0 e with e1 | w1 <;>
    rcases h2 : unescape_spec ((string.take e).drop b0) with e2 | w2 <;>
      rw [h1, h2] at h <;> simp [Except.mapError] at h <;> simp [h]

theorem isspace_ne_quote {c : Char} (h : str_isspace c = true) : c ≠ '"' := by
  intro hc
  subst hc
  simp [str_isspace] at h

theorem isspace_ne_backslash {c : Char} (h : str_isspace c = true) : c ≠ '\\' := by
  intro hc
  subst hc
  simp [str_isspace] at h

theorem splitLoop_of_step_sub {string : List Char} {fuel : Nat} {a b : Config}
    (h : StepRel string a b) (hf : 1 ≤ fuel) :
    splitLoop string fuel a = splitLoop string (fuel - 1) b := by
  obtain ⟨f, rfl⟩ : ∃ f, fuel = f + 1 := ⟨fuel - 1, by omega⟩
  simpa using splitLoop_of_step h

/-! ### Runs across whitespace and across plain word characters -/

theorem space_run : ∀ (mid : List Char) (pre suf : List Char) (fuel : Nat)
    (res : List (List Char)), (∀ c ∈ mid, str_isspace c = true) → mid.length ≤ fuel →
    splitLoop (pre ++ mid ++ suf) fuel ⟨.SPACE, pre.length, none, res⟩ =
      splitLoop (pre ++ mid ++ suf) (fuel - mid.length)
        ⟨.SPACE, pre.length + mid.length, none, res⟩ := by
  intro mid
  induction mid with
  | nil => simp
  | cons c mid2 ih =>
    intro pre suf fuel res hsp hf
    have hc : str_isspace c = true := hsp c (by simp)
    have hstring : pre ++ (c :: mid2) ++ suf = (pre ++ [c]) ++ mid2 ++ suf := by simp
    have hchar : charAt (pre ++ (c :: mid2) ++ suf) pre.length = c := by
      have : pre ++ (c :: mid2) ++ suf = pre ++ (c :: (mid2 ++ suf)) := by simp
      rw [this, ← Nat.add_zero pre.length, charAt_append_right]
      rfl
    have hlen : pre.length < (pre ++ (c :: mid2) ++ suf).length := by
      simp
    have hstep : StepRel (pre ++ (c :: mid2) ++ suf)
        ⟨.SPACE, pre.length, none, res⟩ ⟨.SPACE, pre.length + 1, none, res⟩ := by
      refine ⟨hlen, ?_⟩
      simp only [splitStep]
      rw [process_space_space (by rw [hchar]; exact isspace_ne_quote hc) (by rw [hchar]; exact hc)]
    rw [splitLoop_of_step_sub hstep (by simp at hf; omega)]
    rw [hstring] at *
    have ih2 := ih (pre ++ [c]) suf (fuel - 1) res
      (fun x hx => hsp x (by simp [hx])) (by simp at hf; omega)
    simp only [List.length_append, List.length_cons, List.length_nil, Nat.zero_add] at ih2 ⊢
    have e1 : fuel - 1 - mid2.length = fuel - (mid2.length + 1) := by omega
    have e2 : pre.length + 1 + mid2.length = pre.length + (mid2.length + 1) := by omega
    rw [e1, e2] at ih2
    exact ih2

theorem word_run : ∀ (w2 : List Char) (pre suf : List Char) (fuel bw : Nat)
    (res : List (List Char)), (∀ c ∈ w2, plain_char c) → w2.length ≤ fuel →
    splitLoop (pre ++ w2 ++ suf) fuel ⟨.WORD, pre.length, some bw, res⟩ =
      splitLoop (pre ++ w2 ++ suf) (fuel - w2.length)
        ⟨.WORD, pre.length + w2.length, some bw, res⟩ := by
  intro w2
  induction w2 with
  | nil => simp
  | cons c w3 ih =>
    intro pre suf fuel bw res hpl hf
    obtain ⟨hcs, hcq, hcb⟩ := hpl c (by simp)
    have hstring : pre ++ (c :: w3) ++ suf = (pre ++ [c]) ++ w3 ++ suf := by simp
    have hchar : charAt (pre ++ (c :: w3) ++ suf) pre.length = c := by
      have : pre ++ (c :: w3) ++ suf = pre ++ (c :: (w3 ++ suf)) := by simp
      rw [this, ← Nat.add_zero pre.length, charAt_append_right]
      rfl
    have hlen : pre.length < (pre ++ (c :: w3) ++ suf).length := by
      simp
    have hstep : StepRel (pre ++ (c :: w3) ++ suf)
        ⟨.WORD, pre.length, some bw, res⟩ ⟨.WORD, pre.length + 1, some bw, res⟩ := by
      refine ⟨hlen, ?_⟩
      simp only [splitStep]
      rw [process_word_some_nonspace (by rw [hchar]; exact hcs)]
      rw [accept_ok (by rw [hchar]; exact hcs) (by rw [hchar]; exact fun hq => absurd hq hcq)]
      rfl
    rw [splitLoop_of_step_sub hstep (by simp at hf; omega)]
    rw [hstring] at *
    have ih2 := ih (pre ++ [c]) suf (fuel - 1) bw res
      (fun x hx => hpl x (by simp [hx])) (by simp at hf; omega)
    simp only [List.length_append, List.length_cons, List.length_nil, Nat.zero_add] at ih2 ⊢
    have e1 : fuel - 1 - w3.length = fuel - (w3.length + 1) := by omega
    have e2 : pre.length + 1 + w3.length = pre.length + (w3.length + 1) := by omega
    rw [e1, e2] at ih2
    exact ih2

theorem join_words_cons_cons (w x : List Char) (ws : List (List Char)) :
    join_words (w :: x :: ws) = w ++ ' ' :: join_words (x :: ws) := rfl

theorem make_word_plain {pre w suf : List Char}
    (hpl : ∀ c ∈ w, plain_char c) :
    _make_word (pre ++ w ++ suf) pre.length (pre.length + w.length) = .ok w := by
  rw [make_word_ok_iff]
  have htake : (pre ++ w ++ suf).take (pre.length + w.length) = pre ++ w := by
    rw [show pre.length + w.length = (pre ++ w).length by simp, List.take_left]
  rw [htake, List.drop_left]
  exact unescape_no_bs (fun x hx => (hpl x hx).2.2)

theorem split_join : ∀ (ws : List (List Char)) (pre : List Char)
    (res : List (List Char)) (fuel : Nat),
    (∀ w ∈ ws, w ≠ [] ∧ ∀ c ∈ w, plain_char c) →
    2 * (join_words ws).length + 1 ≤ fuel →
    splitLoop (pre ++ join_words ws) fuel ⟨.SPACE, pre.length, none, res⟩ =
      some (.ok (res ++ ws)) := by
  intro ws
  induction ws with
  | nil =>
    intro pre res fuel _ _
    simp only [join_words, List.append_nil]
    rw [splitLoop_exit (by simp)]
    simp [_split_finish]
  | cons w ws2 ih =>
    intro pre res fuel hws hf
    obtain ⟨hne, hpl⟩ := hws w (by simp)
    obtain ⟨c, w2, rfl⟩ : ∃ c w2, w = c :: w2 := by
      cases w with
      | nil => exact absurd rfl hne
      | cons c w2 => exact ⟨c, w2, rfl⟩
    obtain ⟨hcs, hcq, hcb⟩ := hpl c (by simp)
    cases ws2 with
    | nil =>
      -- last word: scan it, then the loop exits and the span is flushed
      simp only [join_words]
      have hjf : 2 * (w2.length + 1) + 1 ≤ fuel := by
        have hj : (join_words [c :: w2]).length = w2.length + 1 := by
          simp [join_words]
        rw [hj] at hf
        exact hf
      have hchar : charAt (pre ++ c :: w2) pre.length = c := by
        rw [← Nat.add_zero pre.length, charAt_append_right]
        rfl
      have hlen0 : pre.length < (pre ++ c :: w2).length := by simp
      have hstep1 : StepRel (pre ++ c :: w2)
          ⟨.SPACE, pre.length, none, res⟩ ⟨.WORD, pre.length, none, res⟩ := by
        refine ⟨hlen0, ?_⟩
        simp only [splitStep]
        rw [process_space_word (by rw [hchar]; exact hcq) (by rw [hchar]; exact hcs)]
      have hstep2 : StepRel (pre ++ c :: w2)
          ⟨.WORD, pre.length, none, res⟩
          ⟨.WORD, pre.length + 1, some pre.length, res⟩ := by
        refine ⟨hlen0, ?_⟩
        simp only [splitStep]
        rw [process_word_none,
          accept_ok (by rw [hchar]; exact hcs) (by rw [hchar]; exact fun hq => absurd hq hcq)]
        rfl
      rw [splitLoop_of_step_sub hstep1 (by omega)]
      rw [splitLoop_of_step_sub hstep2 (by omega)]
      have hrw : pre ++ c :: w2 = (pre ++ [c]) ++ w2 ++ [] := by simp
      rw [hrw]
      have hrun := word_run w2 (pre ++ [c]) [] (fuel - 1 - 1) pre.length res
        (fun x hx => hpl x (by simp [hx])) (by omega)
      simp only [List.length_append, List.length_cons, List.length_nil, Nat.zero_add] at hrun
      rw [hrun]
      rw [splitLoop_exit (by simp; omega)]
      have hmw : _make_word ((pre ++ [c]) ++ w2 ++ []) pre.length
          (pre.length + 1 + w2.length) = .ok (c :: w2) := by
        have h2 : (pre ++ [c]) ++ w2 ++ [] = pre ++ (c :: w2) ++ [] := by simp
        have h3 : pre.length + 1 + w2.length = pre.length + (c :: w2).length := by
          simp only [List.length_cons]
          omega
        rw [h2, h3]
        exact make_word_plain hpl
      have hfin : _split_finish ((pre ++ [c]) ++ w2 ++ [])
          ⟨.WORD, pre.length + 1 + w2.length, some pre.length, res⟩ =
          .ok (res ++ [c :: w2]) := by
        simp only [_split_finish]
        rw [if_neg (by simp)]
        rw [hmw]
        rfl
      rw [hfin]
    | cons x ws3 =>
      rw [join_words_cons_cons]
      have hjf : 2 * (w2.length + 1 + 1 + (join_words (x :: ws3)).length) + 1 ≤ fuel := by
        have hj : (join_words ((c :: w2) :: x :: ws3)).length =
            w2.length + 1 + 1 + (join_words (x :: ws3)).length := by
          rw [join_words_cons_cons]
          simp
          omega
        rw [hj] at hf
        exact hf
      -- string = pre ++ (c :: w2) ++ ' ' :: join_words (x :: ws3)
      have hassoc1 : pre ++ (c :: w2 ++ ' ' :: join_words (x :: ws3)) =
          pre ++ (c :: w2) ++ ' ' :: join_words (x :: ws3) := by simp
      rw [hassoc1]
      have hchar : charAt (pre ++ (c :: w2) ++ ' ' :: join_words (x :: ws3)) pre.length = c := by
        rw [show pre ++ (c :: w2) ++ ' ' :: join_words (x :: ws3) =
          pre ++ (c :: (w2 ++ ' ' :: join_words (x :: ws3))) by simp]
        rw [← Nat.add_zero pre.length, charAt_append_right]
        rfl
      have hlen0 : pre.length < (pre ++ (c :: w2) ++ ' ' :: join_words (x :: ws3)).length := by
        simp
      have hstep1 : StepRel (pre ++ (c :: w2) ++ ' ' :: join_words (x :: ws3))
          ⟨.SPACE, pre.length, none, res⟩ ⟨.WORD, pre.length, none, res⟩ := by
        refine ⟨hlen0, ?_⟩
        simp only [splitStep]
        rw [process_space_word (by rw [hchar]; exact hcq) (by rw [hchar]; exact hcs)]
      have hstep2 : StepRel (pre ++ (c :: w2) ++ ' ' :: join_words (x :: ws3))
          ⟨.WORD, pre.length, none, res⟩
          ⟨.WORD, pre.length + 1, some pre.length, res⟩ := by
        refine ⟨hlen0, ?_⟩
        simp only [splitStep]
        rw [process_word_none,
          accept_ok (by rw [hchar]; exact hcs) (by rw [hchar]; exact fun hq => absurd hq hcq)]
        rfl
      rw [splitLoop_of_step_sub hstep1 (by omega)]
      rw [splitLoop_of_step_sub hstep2 (by omega)]
      have hrw : pre ++ (c :: w2) ++ ' ' :: join_words (x :: ws3) =
          (pre ++ [c]) ++ w2 ++ ' ' :: join_words (x :: ws3) := by simp
      rw [hrw]
      have hrun := word_run w2 (pre ++ [c]) (' ' :: join_words (x :: ws3))
        (fuel - 1 - 1) pre.length res
        (fun y hy => hpl y (by simp [hy])) (by omega)
      simp only [List.length_append, List.length_cons, List.length_nil, Nat.zero_add] at hrun
      rw [hrun]
      -- now at the separating space, in the WORD state with an open span
      have hchar2 : charAt ((pre ++ [c]) ++ w2 ++ ' ' :: join_words (x :: ws3))
          (pre.length + 1 + w2.length) = ' ' := by
        have hidx : pre.length + 1 + w2.length = ((pre ++ [c]) ++ w2).length + 0 := by
          simp only [List.length_append, List.length_cons, List.length_nil,
            Nat.zero_add, Nat.add_zero]
        rw [hidx, charAt_append_right]
        rfl
      have hlen2 : pre.length + 1 + w2.length <
          ((pre ++ [c]) ++ w2 ++ ' ' :: join_words (x :: ws3)).length := by
        simp
        omega
      have hmw : _make_word ((pre ++ [c]) ++ w2 ++ ' ' :: join_words (x :: ws3))
          pre.length (pre.length + 1 + w2.length) = .ok (c :: w2) := by
        have h2 : (pre ++ [c]) ++ w2 ++ ' ' :: join_words (x :: ws3) =
            pre ++ (c :: w2) ++ ' ' :: join_words (x :: ws3) := by simp
        have h3 : pre.length + 1 + w2.length = pre.length + (c :: w2).length := by
          simp only [List.length_cons]
          omega
        rw [h2, h3]
        exact make_word_plain hpl
      have hstep3 : StepRel ((pre ++ [c]) ++ w2 ++ ' ' :: join_words (x :: ws3))
          ⟨.WORD, pre.length + 1 + w2.length, some pre.length, res⟩
          ⟨.SPACE, pre.length + 1 + w2.length, none, res ++ [c :: w2]⟩ := by
        refine ⟨hlen2, ?_⟩
        simp only [splitStep]
        rw [process_word_some_space (by rw [hchar2]; rfl), hmw]
        rfl
      rw [splitLoop_of_step_sub hstep3 (by omega)]
      have hstep4 : StepRel ((pre ++ [c]) ++ w2 ++ ' ' :: join_words (x :: ws3))
          ⟨.SPACE, pre.length + 1 + w2.length, none, res ++ [c :: w2]⟩
          ⟨.SPACE, pre.length + 1 + w2.length + 1, none, res ++ [c :: w2]⟩ := by
        refine ⟨hlen2, ?_⟩
        simp only [splitStep]
        rw [process_space_space (by rw [hchar2]; exact isspace_ne_quote (by rfl)) (by rw [hchar2]; rfl)]
      rw [splitLoop_of_step_sub hstep4 (by omega)]
      -- recurse on the remaining words
      have hrw2 : (pre ++ [c]) ++ w2 ++ ' ' :: join_words (x :: ws3) =
          ((pre ++ [c]) ++ w2 ++ [' ']) ++ join_words (x :: ws3) := by simp
      rw [hrw2]
      have ih2 := ih ((pre ++ [c]) ++ w2 ++ [' ']) (res ++ [c :: w2])
        (fuel - 1 - 1 - w2.length - 1 - 1)
        (fun y hy => hws y (by simp [hy]))
        (by omega)
      simp only [List.length_append, List.length_cons, List.length_nil, Nat.zero_add] at ih2
      rw [ih2]
      simp

/-! ### Shift lemmas: runs over a common suffix are insensitive to the prefix -/

theorem lookback_shift (p t : List Char) (j : Nat) (hj : 1 ≤ j) :
    charAt (p ++ t) (p.length + j - 1) = charAt t (j - 1) := by
  rw [show p.length + j - 1 = p.length + (j - 1) by omega, charAt_append_right]

theorem len_shift (p t : List Char) (j : Nat) :
    p.length + j < (p ++ t).length ↔ j < t.length := by
  simp

theorem take_append_plus : ∀ (p t : List Char) (j : Nat),
    (p ++ t).take (p.length + j) = p ++ t.take j := by
  intro p
  induction p with
  | nil => simp
  | cons x l ih =>
    intro t j
    have h1 : (x :: l).length + j = (l.length + j) + 1 := by simp; omega
    have h2 : x :: l ++ t = x :: (l ++ t) := rfl
    rw [h1, h2, List.take_succ_cons, ih]
    rfl

theorem drop_append_plus : ∀ (p t : List Char) (j : Nat),
    (p ++ t).drop (p.length + j) = t.drop j := by
  intro p
  induction p with
  | nil => simp
  | cons x l ih =>
    intro t j
    have h1 : (x :: l).length + j = (l.length + j) + 1 := by simp; omega
    have h2 : x :: l ++ t = x :: (l ++ t) := rfl
    rw [h1, h2, List.drop_succ_cons, ih]

theorem make_word_shift {p q t : List Char} {k j : Nat} {w : List Char}
    (h : _make_word (p ++ t) (p.length + k) (p.length + j) = .ok w) :
    _make_word (q ++ t) (q.length + k) (q.length + j) = .ok w := by
  rw [make_word_ok_iff] at h ⊢
  rw [take_append_plus, drop_append_plus] at h ⊢
  exact h

theorem accept_shift (p t : List Char) (j : Nat)
    (hj : 1 ≤ j ∨ charAt t j ≠ '"') :
    _accept_word_char (p ++ t) (p.length + j) =
      if str_isspace (charAt t j) = true ∨
          (charAt t j = '"' ∧ ¬(1 ≤ j ∧ charAt t (j - 1) = '\\')) then
        .error (.invalidAcceptError (charAt t j) (p.length + j))
      else .ok (p.length + j + 1) := by
  unfold _accept_word_char
  rw [charAt_append_right]
  rcases hj with hj | hj
  · have h1 : (1 ≤ p.length + j ∧ charAt (p ++ t) (p.length + j - 1) = '\\') ↔
        (1 ≤ j ∧ charAt t (j - 1) = '\\') := by
      rw [lookback_shift p t j hj]
      constructor
      · exact fun h => ⟨hj, h.2⟩
      · exact fun h => ⟨by omega, h.2⟩
    by_cases hc : str_isspace (charAt t j) = true ∨
        (charAt t j = '"' ∧ ¬(1 ≤ j ∧ charAt t (j - 1) = '\\'))
    · rw [if_pos hc, if_pos]
      rcases hc with hc | ⟨hc1, hc2⟩
      · exact .inl hc
      · exact .inr ⟨hc1, fun hx => hc2 (h1.mp hx)⟩
    · rw [if_neg hc, if_neg]
      intro hx
      rcases hx with hx | ⟨hx1, hx2⟩
      · exact hc (.inl hx)
      · exact hc (.inr ⟨hx1, fun hy => hx2 (h1.mpr hy)⟩)
  · by_cases hs : str_isspace (charAt t j) = true
    · rw [if_pos (.inl hs), if_pos (.inl hs)]
    · rw [if_neg (fun hx => hx.elim (fun hs2 => hs hs2) (fun hand => hj hand.1)),
          if_neg (fun hx => hx.elim (fun hs2 => hs hs2) (fun hand => hj hand.1))]

theorem cond_quote_shift (p t : List Char) (j : Nat) :
    (p.length + j + 1 < (p ++ t).length ∧
        ¬ str_isspace (charAt (p ++ t) (p.length + j + 1)) = true) ↔
      (j + 1 < t.length ∧ ¬ str_isspace (charAt t (j + 1)) = true) := by
  rw [show p.length + j + 1 = p.length + (j + 1) by omega, charAt_append_right, len_shift]

theorem cond_close_shift (p t : List Char) (j : Nat) (hj : 1 ≤ j) :
    (charAt (p ++ t) (p.length + j) = '"' ∧
        ¬(1 ≤ p.length + j ∧ charAt (p ++ t) (p.length + j - 1) = '\\')) ↔
      (charAt t j = '"' ∧ ¬(1 ≤ j ∧ charAt t (j - 1) = '\\')) := by
  rw [charAt_append_right, lookback_shift p t j hj]
  constructor
  · rintro ⟨h1, h2⟩
    exact ⟨h1, fun hx => h2 ⟨by omega, hx.2⟩⟩
  · rintro ⟨h1, h2⟩
    exact ⟨h1, fun hx => h2 ⟨hj, hx.2⟩⟩

theorem splitStep_mk_WORD (s : List Char) (i : Nat) (b : Option Nat)
    (res : List (List Char)) :
    splitStep s ⟨.WORD, i, b, res⟩ =
      (_process_word_state s i b res).map (fun r => ⟨r.1, r.2.1, r.2.2.1, r.2.2.2⟩) := rfl

theorem splitStep_mk_QUOTES (s : List Char) (i : Nat) (b : Option Nat)
    (res : List (List Char)) :
    splitStep s ⟨.QUOTES, i, b, res⟩ =
      (_process_quote_state s i b res).map (fun r => ⟨r.1, r.2.1, r.2.2.1, r.2.2.2⟩) := rfl

/-- One successful step over the common suffix `t` is mirrored exactly when
the prefix `p` is replaced by `q`, and the step-invariants are preserved. -/
theorem step_shift {p q t : List Char} {j : Nat} {st : _State} {b : Option Nat}
    {res : List (List Char)} {c2 : Config}
    (hw : st = .WORD → b = none → j = 0 → charAt t 0 ≠ '"')
    (hqs : st = .QUOTES → 1 ≤ j)
    (hb : ∀ k, b = some k → k < j)
    (hstep : splitStep (p ++ t) ⟨st, p.length + j, b.map (p.length + ·), res⟩ = .ok c2) :
    ∃ (st2 : _State) (j2 : Nat) (b2 : Option Nat) (res2 : List (List Char)),
      c2 = ⟨st2, p.length + j2, b2.map (p.length + ·), res2⟩ ∧
      splitStep (q ++ t) ⟨st, q.length + j, b.map (q.length + ·), res⟩ =
        .ok ⟨st2, q.length + j2, b2.map (q.length + ·), res2⟩ ∧
      (st2 = .WORD → b2 = none → j2 = 0 → charAt t 0 ≠ '"') ∧
      (st2 = .QUOTES → 1 ≤ j2) ∧
      (∀ k, b2 = some k → k < j2) := by
  cases st with
  | SPACE =>
    have hc2 := splitStep_SPACE hstep
    by_cases hqc : charAt t j = '"'
    · rw [process_space_quote (by rw [charAt_append_right]; exact hqc)] at hc2
      refine ⟨.QUOTES, j + 1, b, res, ?_, ?_, by simp, fun _ => by omega, ?_⟩
      · rw [hc2]
        simp [Config.mk.injEq]
        omega
      · simp only [splitStep]
        rw [process_space_quote (by rw [charAt_append_right]; exact hqc)]
        simp [Config.mk.injEq]
        omega
      · intro k hk
        have := hb k hk
        omega
    · by_cases hss : str_isspace (charAt t j) = true
      · rw [process_space_space (by rw [charAt_append_right]; exact hqc)
          (by rw [charAt_append_right]; exact hss)] at hc2
        refine ⟨.SPACE, j + 1, b, res, ?_, ?_, by simp, by simp, ?_⟩
        · rw [hc2]
          simp [Config.mk.injEq]
          omega
        · simp only [splitStep]
          rw [process_space_space (by rw [charAt_append_right]; exact hqc)
            (by rw [charAt_append_right]; exact hss)]
          simp [Config.mk.injEq]
          omega
        · intro k hk
          have := hb k hk
          omega
      · rw [process_space_word (by rw [charAt_append_right]; exact hqc)
          (by rw [charAt_append_right]; simpa using hss)] at hc2
        refine ⟨.WORD, j, b, res, ?_, ?_, ?_, by simp, hb⟩
        · rw [hc2]
        · simp only [splitStep]
          rw [process_space_word (by rw [charAt_append_right]; exact hqc)
            (by rw [charAt_append_right]; simpa using hss)]
        · intro _ _ hj0
          rw [← hj0]
          exact hqc
  | WORD =>
    cases b with
    | none =>
      have hj : 1 ≤ j ∨ charAt t j ≠ '"' := by
        rcases Nat.eq_zero_or_pos j with h0 | h1
        · exact .inr (h0 ▸ hw rfl rfl h0)
        · exact .inl h1
      have hpw := splitStep_WORD hstep
      simp only [Option.map_none'] at hpw
      rw [process_word_none, accept_shift p t j hj] at hpw
      by_cases hcond : str_isspace (charAt t j) = true ∨
          (charAt t j = '"' ∧ ¬(1 ≤ j ∧ charAt t (j - 1) = '\\'))
      · rw [if_pos hcond] at hpw
        simp [Except.map] at hpw
      · rw [if_neg hcond] at hpw
        simp only [Except.map, Except.ok.injEq, Prod.mk.injEq] at hpw
        obtain ⟨h1, h2, h3, h4⟩ := hpw
        refine ⟨.WORD, j + 1, some j, res, ?_, ?_, by simp, by simp, ?_⟩
        · obtain ⟨cst, ci, cb, cres⟩ := c2
          simp only at h1 h2 h3 h4
          simp [Config.mk.injEq, ← h1, ← h2, ← h3, ← h4]
          omega
        · simp only [splitStep_mk_WORD, Option.map_none', Option.map_some']
          rw [process_word_none, accept_shift q t j hj, if_neg hcond]
          simp [Except.map, Config.mk.injEq]
          omega
        · intro k hk
          simp at hk
          omega
    | some k =>
      have hk : k < j := hb k rfl
      have hj1 : 1 ≤ j := by omega
      have hpw := splitStep_WORD hstep
      simp only [Option.map_some'] at hpw
      by_cases hss : str_isspace (charAt t j) = true
      · rw [process_word_some_space (by rw [charAt_append_right]; exact hss)] at hpw
        rcases hm : _make_word (p ++ t) (p.length + k) (p.length + j) with e | w <;>
          rw [hm] at hpw
        · simp [Except.map] at hpw
        · simp only [Except.map, Except.ok.injEq, Prod.mk.injEq] at hpw
          obtain ⟨h1, h2, h3, h4⟩ := hpw
          refine ⟨.SPACE, j, none, res ++ [w], ?_, ?_, by simp, by simp, by simp⟩
          · obtain ⟨cst, ci, cb, cres⟩ := c2
            simp only at h1 h2 h3 h4
            simp [Config.mk.injEq, ← h1, ← h2, ← h3, ← h4]
          · simp only [splitStep_mk_WORD, Option.map_some', Option.map_none']
            rw [process_word_some_space (by rw [charAt_append_right]; exact hss),
              make_word_shift hm]
            simp [Except.map, Config.mk.injEq]
      · rw [process_word_some_nonspace (by rw [charAt_append_right]; simpa using hss),
          accept_shift p t j (.inl hj1)] at hpw
        by_cases hcond : str_isspace (charAt t j) = true ∨
            (charAt t j = '"' ∧ ¬(1 ≤ j ∧ charAt t (j - 1) = '\\'))
        · rw [if_pos hcond] at hpw
          simp [Except.map] at hpw
        · rw [if_neg hcond] at hpw
          simp only [Except.map, Except.ok.injEq, Prod.mk.injEq] at hpw
          obtain ⟨h1, h2, h3, h4⟩ := hpw
          refine ⟨.WORD, j + 1, some k, res, ?_, ?_, by simp, by simp, ?_⟩
          · obtain ⟨cst, ci, cb, cres⟩ := c2
            simp only at h1 h2 h3 h4
            simp [Config.mk.injEq, ← h1, ← h2, ← h3, ← h4]
            omega
          · simp only [splitStep_mk_WORD, Option.map_some']
            rw [process_word_some_nonspace (by rw [charAt_append_right]; simpa using hss),
              accept_shift q t j (.inl hj1), if_neg hcond]
            simp [Except.map, Config.mk.injEq]
            omega
          · intro k2 hk2
            simp at hk2
            omega
  | QUOTES =>
    cases b with
    | none =>
      have hpq := splitStep_QUOTES hstep
      simp only [Option.map_none'] at hpq
      by_cases hqc : charAt t j = '"'
      · rw [process_quote_none_quote (by rw [charAt_append_right]; exact hqc)] at hpq
        by_cases hct : j + 1 < t.length ∧ ¬ str_isspace (charAt t (j + 1)) = true
        · rw [if_pos ((cond_quote_shift p t j).mpr hct)] at hpq
          simp [Except.map] at hpq
        · rw [if_neg (fun hx => hct ((cond_quote_shift p t j).mp hx))] at hpq
          simp only [Except.map, Except.ok.injEq, Prod.mk.injEq] at hpq
          obtain ⟨h1, h2, h3, h4⟩ := hpq
          refine ⟨.SPACE, j + 1, none, res ++ [[]], ?_, ?_, by simp, by simp, by simp⟩
          · obtain ⟨cst, ci, cb, cres⟩ := c2
            simp only at h1 h2 h3 h4
            simp [Config.mk.injEq, ← h1, ← h2, ← h3, ← h4]
            omega
          · simp only [splitStep_mk_QUOTES, Option.map_none']
            rw [process_quote_none_quote (by rw [charAt_append_right]; exact hqc),
              if_neg (fun hx => hct ((cond_quote_shift q t j).mp hx))]
            simp [Except.map, Config.mk.injEq]
            omega
      · rw [process_quote_none_open (by rw [charAt_append_right]; exact hqc)] at hpq
        simp only [Except.map, Except.ok.injEq, Prod.mk.injEq] at hpq
        obtain ⟨h1, h2, h3, h4⟩ := hpq
        refine ⟨.QUOTES, j + 1, some j, res, ?_, ?_, by simp, fun _ => by omega, ?_⟩
        · obtain ⟨cst, ci, cb, cres⟩ := c2
          simp only at h1 h2 h3 h4
          simp [Config.mk.injEq, ← h1, ← h2, ← h3, ← h4]
          omega
        · simp only [splitStep_mk_QUOTES, Option.map_none', Option.map_some']
          rw [process_quote_none_open (by rw [charAt_append_right]; exact hqc)]
          simp [Except.map, Config.mk.injEq]
          omega
        · intro k hk
          simp at hk
          omega
    | some k =>
      have hk : k < j := hb k rfl
      have hj1 : 1 ≤ j := hqs rfl
      have hpq := splitStep_QUOTES hstep
      simp only [Option.map_some'] at hpq
      by_cases hcc : charAt t j = '"' ∧ ¬(1 ≤ j ∧ charAt t (j - 1) = '\\')
      · have hccP := (cond_close_shift p t j hj1).mpr hcc
        rw [process_quote_close hccP.1 hccP.2] at hpq
        rcases hm : _make_word (p ++ t) (p.length + k) (p.length + j) with e | w <;>
          rw [hm] at hpq
        · simp [Except.map, Except.bind] at hpq
        · simp only [Except.bind] at hpq
          by_cases hct : j + 1 < t.length ∧ ¬ str_isspace (charAt t (j + 1)) = true
          · rw [if_pos ((cond_quote_shift p t j).mpr hct)] at hpq
            simp [Except.map] at hpq
          · rw [if_neg (fun hx => hct ((cond_quote_shift p t j).mp hx))] at hpq
            simp only [Except.map, Except.ok.injEq, Prod.mk.injEq] at hpq
            obtain ⟨h1, h2, h3, h4⟩ := hpq
            refine ⟨.SPACE, j + 1, none, res ++ [w], ?_, ?_, by simp, by simp, by simp⟩
            · obtain ⟨cst, ci, cb, cres⟩ := c2
              simp only at h1 h2 h3 h4
              simp [Config.mk.injEq, ← h1, ← h2, ← h3, ← h4]
              omega
            · have hccQ := (cond_close_shift q t j hj1).mpr hcc
              simp only [splitStep_mk_QUOTES, Option.map_some', Option.map_none']
              rw [process_quote_close hccQ.1 hccQ.2, make_word_shift hm]
              simp only [Except.bind]
              rw [if_neg (fun hx => hct ((cond_quote_shift q t j).mp hx))]
              simp [Except.map, Config.mk.injEq]
              omega
      · rw [process_quote_continue (fun hx => hcc ((cond_close_shift p t j hj1).mp hx))] at hpq
        simp only [Except.map, Except.ok.injEq, Prod.mk.injEq] at hpq
        obtain ⟨h1, h2, h3, h4⟩ := hpq
        refine ⟨.QUOTES, j + 1, some k, res, ?_, ?_, by simp, fun _ => by omega, ?_⟩
        · obtain ⟨cst, ci, cb, cres⟩ := c2
          simp only at h1 h2 h3 h4
          simp [Config.mk.injEq, ← h1, ← h2, ← h3, ← h4]
          omega
        · simp only [splitStep_mk_QUOTES, Option.map_some']
          rw [process_quote_continue (fun hx => hcc ((cond_close_shift q t j hj1).mp hx))]
          simp [Except.map, Config.mk.injEq]
          omega
        · intro k2 hk2
          simp at hk2
          omega

/-- The after-loop finalization over a common suffix is insensitive to the
prefix, for successful outcomes. -/
theorem finish_shift {p q t : List Char} {j : Nat} {st : _State} {b : Option Nat}
    {res v : List (List Char)}
    (hfin : _split_finish (p ++ t) ⟨st, p.length + j, b.map (p.length + ·), res⟩ = .ok v) :
    _split_finish (q ++ t) ⟨st, q.length + j, b.map (q.length + ·), res⟩ = .ok v := by
  unfold _split_finish at hfin ⊢
  by_cases hst : st = .QUOTES
  · rw [if_pos (by simpa using hst)] at hfin
    exact absurd hfin (by simp)
  · rw [if_neg (by simpa using hst)] at hfin
    rw [if_neg (by simpa using hst)]
    cases b with
    | none => simpa using hfin
    | some k =>
      simp only [Option.map_some'] at hfin ⊢
      rcases hm : _make_word (p ++ t) (p.length + k) (p.length + j) with e | w <;>
        rw [hm] at hfin <;> simp [Except.map] at hfin
      rw [make_word_shift hm]
      simp [Except.map, hfin]

/-- Shift lemma: a successful run of the scan loop from a configuration that
lies entirely inside a common suffix `t` is mirrored exactly when the prefix
`p` of the input is replaced by any other prefix `q`, provided all span
bookkeeping also lies inside `t`. -/
theorem shift_run : ∀ (fuel : Nat) (p q t : List Char) (j : Nat) (st : _State)
    (b : Option Nat) (res v : List (List Char)),
    (st = .WORD → b = none → j = 0 → charAt t 0 ≠ '"') →
    (st = .QUOTES → 1 ≤ j) →
    (∀ k, b = some k → k < j) →
    splitLoop (p ++ t) fuel ⟨st, p.length + j, b.map (p.length + ·), res⟩ = some (.ok v) →
    splitLoop (q ++ t) fuel ⟨st, q.length + j, b.map (q.length + ·), res⟩ = some (.ok v) := by
  intro fuel
  induction fuel with
  | zero =>
    intro p q t j st b res v hw hqs hb hrun
    by_cases hlt : p.length + j < (p ++ t).length
    · rw [splitLoop_zero_none hlt] at hrun
      exact Option.noConfusion hrun
    · have hjt : ¬ j < t.length := fun h => hlt ((len_shift p t j).mpr h)
      have hlt2 : ¬ q.length + j < (q ++ t).length := fun h => hjt ((len_shift q t j).mp h)
      rw [splitLoop_exit hlt] at hrun
      rw [splitLoop_exit hlt2]
      have hfin : _split_finish (p ++ t) ⟨st, p.length + j, b.map (p.length + ·), res⟩ =
          .ok v := (Option.some.injEq _ _).mp hrun
      rw [finish_shift hfin]
  | succ f ih =>
    intro p q t j st b res v hw hqs hb hrun
    by_cases hlt : p.length + j < (p ++ t).length
    · have hjt : j < t.length := (len_shift p t j).mp hlt
      have hlt2 : q.length + j < (q ++ t).length := (len_shift q t j).mpr hjt
      rw [splitLoop_succ_of_lt hlt] at hrun
      rw [splitLoop_succ_of_lt hlt2]
      rcases hstepP : splitStep (p ++ t) ⟨st, p.length + j, b.map (p.length + ·), res⟩
        with e | c2
      · rw [hstepP] at hrun
        simp at hrun
      · obtain ⟨st2, j2, b2, res2, rfl, hstepQ, hw2, hq2, hb2⟩ :=
          step_shift hw hqs hb hstepP
        rw [hstepP] at hrun
        rw [hstepQ]
        simp only at hrun ⊢
        exact ih p q t j2 st2 b2 res2 v hw2 hq2 hb2 hrun
    · have hjt : ¬ j < t.length := fun h => hlt ((len_shift p t j).mpr h)
      have hlt2 : ¬ q.length + j < (q ++ t).length := fun h => hjt ((len_shift q t j).mp h)
      rw [splitLoop_exit hlt] at hrun
      rw [splitLoop_exit hlt2]
      have hfin : _split_finish (p ++ t) ⟨st, p.length + j, b.map (p.length + ·), res⟩ =
          .ok v := (Option.some.injEq _ _).mp hrun
      rw [finish_shift hfin]

/-! ### Extension lemmas: trailing whitespace does not change a successful run -/

theorem charAt_mem : ∀ (l : List Char) (k : Nat), k < l.length → charAt l k ∈ l := by
  intro l
  induction l with
  | nil =>
    intro k h
    simp at h
  | cons x xs ih =>
    intro k h
    cases k with
    | zero => exact List.mem_cons_self x xs
    | succ k2 =>
      rw [charAt_cons_succ]
      exact List.mem_cons_of_mem x (ih k2 (by simpa using h))

theorem make_word_extend {s sp : List Char} {b0 i : Nat} (hi : i ≤ s.length) :
    _make_word (s ++ sp) b0 i = _make_word s b0 i := by
  unfold _make_word
  rw [List.take_append_of_le_length hi]

theorem step_i_le {string : List Char} {c c2 : Config}
    (hlt : c.i < string.length) (hstep : splitStep string c = .ok c2) :
    c2.i ≤ string.length := by
  obtain ⟨st, i, b, res⟩ := c
  simp only at hlt
  cases st
  · have hc2 := splitStep_SPACE hstep
    subst hc2
    simp only [_process_space_state]
    split
    · simp
      omega
    · split <;> simp <;> omega
  · have hp := splitStep_WORD hstep
    rcases process_word_i_inv hp with ⟨_, hi2⟩ | ⟨_, hi2, _⟩ <;> simp <;> omega
  · have hp := splitStep_QUOTES hstep
    have hi2 := process_quote_i_inv hp
    simp
    omega

theorem step_word_none_lt {s : List Char} {cfg c2 : Config}
    (hlt : cfg.i < s.length) (hstep : splitStep s cfg = .ok c2) :
    c2.state = .WORD → c2.begin_word = none → c2.i < s.length := by
  obtain ⟨st, i, b, res⟩ := cfg
  simp only at hlt
  cases st
  · have hc2 := splitStep_SPACE hstep
    subst hc2
    simp only [_process_space_state]
    split
    · simp
    · split
      · intro _ _
        simpa using hlt
      · simp
  · have hp := splitStep_WORD hstep
    obtain ⟨cst, ci, cb, cres⟩ := c2
    simp only at hp ⊢
    cases b with
    | none =>
      rw [process_word_none] at hp
      rcases ha : _accept_word_char s i with e | jj <;> rw [ha] at hp <;>
        simp [Except.map] at hp
      intro _ hbn
      rw [← hp.2.2.1] at hbn
      exact absurd hbn (by simp)
    | some b0 =>
      by_cases hss : str_isspace (charAt s i) = true
      · rw [process_word_some_space hss] at hp
        rcases hm : _make_word s b0 i with e | w <;> rw [hm] at hp <;>
          simp [Except.map] at hp
        intro hst
        rw [← hp.1] at hst
        exact absurd hst (by simp)
      · rw [process_word_some_nonspace (by simpa using hss)] at hp
        rcases ha : _accept_word_char s i with e | jj <;> rw [ha] at hp <;>
          simp [Except.map] at hp
        intro _ hbn
        rw [← hp.2.2.1] at hbn
        exact absurd hbn (by simp)
  · have hp := splitStep_QUOTES hstep
    obtain ⟨cst, ci, cb, cres⟩ := c2
    simp only at hp ⊢
    cases b with
    | none =>
      by_cases hqc : charAt s i = '"'
      · rw [process_quote_none_quote hqc] at hp
        split at hp <;> simp at hp
        intro hst
        rw [← hp.1] at hst
        exact absurd hst (by simp)
      · rw [process_quote_none_open hqc] at hp
        simp at hp
        intro _ hbn
        rw [← hp.2.2.1] at hbn
        exact absurd hbn (by simp)
    | some b0 =>
      by_cases hcc : charAt s i = '"' ∧ ¬(1 ≤ i ∧ charAt s (i - 1) = '\\')
      · rw [process_quote_close hcc.1 hcc.2] at hp
        rcases hm : _make_word s b0 i with e | w <;> rw [hm] at hp <;>
          simp [Except.bind] at hp
        split at hp <;> simp at hp
        intro hst
        rw [← hp.1] at hst
        exact absurd hst (by simp)
      · rw [process_quote_continue hcc] at hp
        simp at hp
        intro _ hbn
        rw [← hp.2.2.1] at hbn
        exact absurd hbn (by simp)

theorem splitStep_mk_SPACE (s : List Char) (i : Nat) (b : Option Nat)
    (res : List (List Char)) :
    splitStep s ⟨.SPACE, i, b, res⟩ =
      .ok ⟨(_process_space_state s i).1, (_process_space_state s i).2, b, res⟩ := rfl

theorem cond_extend {s sp : List Char} (i2 : Nat)
    (hsp : ∀ c ∈ sp, str_isspace c = true) (h2 : ¬ i2 < s.length) :
    ((i2 < (s ++ sp).length ∧ ¬ str_isspace (charAt (s ++ sp) i2) = true) ↔
      (i2 < s.length ∧ ¬ str_isspace (charAt s i2) = true)) := by
  constructor
  · intro hx
    exfalso
    have h4 : i2 - s.length < sp.length := by
      have := hx.1
      simp at this
      omega
    have h5 : charAt (s ++ sp) i2 = charAt sp (i2 - s.length) := by
      conv_lhs => rw [show i2 = s.length + (i2 - s.length) by omega]
      rw [charAt_append_right]
    exact hx.2 (by rw [h5]; exact hsp _ (charAt_mem sp _ h4))
  · intro hx
    exact absurd hx.1 h2

theorem cond_extend_iff {s sp : List Char} (i2 : Nat)
    (hsp : ∀ c ∈ sp, str_isspace c = true) :
    ((i2 < (s ++ sp).length ∧ ¬ str_isspace (charAt (s ++ sp) i2) = true) ↔
      (i2 < s.length ∧ ¬ str_isspace (charAt s i2) = true)) := by
  by_cases h2 : i2 < s.length
  · rw [charAt_append_left s sp i2 h2]
    simp only [List.length_append]
    constructor
    · exact fun hx => ⟨h2, hx.2⟩
    · exact fun hx => ⟨by omega, hx.2⟩
  · exact cond_extend i2 hsp h2

theorem process_space_extend {s sp : List Char} {i : Nat} (hlt : i < s.length) :
    _process_space_state (s ++ sp) i = _process_space_state s i := by
  unfold _process_space_state
  rw [charAt_append_left s sp i hlt]

theorem accept_extend {s sp : List Char} {i : Nat} (hlt : i < s.length) :
    _accept_word_char (s ++ sp) i = _accept_word_char s i := by
  unfold _accept_word_char
  rw [charAt_append_left s sp i hlt, charAt_append_left s sp (i - 1) (by omega)]

theorem process_word_extend {s sp : List Char} {i : Nat} {b : Option Nat}
    {res : List (List Char)} (hlt : i < s.length) :
    _process_word_state (s ++ sp) i b res = _process_word_state s i b res := by
  cases b with
  | none => rw [process_word_none, process_word_none, accept_extend hlt]
  | some b0 =>
    by_cases hss : str_isspace (charAt s i) = true
    · rw [process_word_some_space (by rw [charAt_append_left s sp i hlt]; exact hss),
        process_word_some_space hss, make_word_extend (by omega)]
    · rw [process_word_some_nonspace
          (by rw [charAt_append_left s sp i hlt]; simpa using hss),
        process_word_some_nonspace (by simpa using hss), accept_extend hlt]

theorem process_quote_extend {s sp : List Char} {i : Nat} {b : Option Nat}
    {res : List (List Char)} (hsp : ∀ c ∈ sp, str_isspace c = true)
    (hlt : i < s.length) :
    _process_quote_state (s ++ sp) i b res = _process_quote_state s i b res := by
  cases b with
  | none =>
    by_cases hqc : charAt s i = '"'
    · rw [process_quote_none_quote (by rw [charAt_append_left s sp i hlt]; exact hqc),
        process_quote_none_quote hqc]
      exact if_congr (cond_extend_iff (i + 1) hsp) rfl rfl
    · rw [process_quote_none_open (by rw [charAt_append_left s sp i hlt]; exact hqc),
        process_quote_none_open hqc]
  | some b0 =>
    by_cases hcc : charAt s i = '"' ∧ ¬(1 ≤ i ∧ charAt s (i - 1) = '\\')
    · have hccM : charAt (s ++ sp) i = '"' ∧
          ¬(1 ≤ i ∧ charAt (s ++ sp) (i - 1) = '\\') := by
        rw [charAt_append_left s sp i hlt, charAt_append_left s sp (i - 1) (by omega)]
        exact hcc
      rw [process_quote_close hccM.1 hccM.2, process_quote_close hcc.1 hcc.2,
        make_word_extend (by omega : i ≤ s.length)]
      rcases _make_word s b0 i with e | w
      · rfl
      · simp only [Except.bind]
        exact if_congr (cond_extend_iff (i + 1) hsp) rfl rfl
    · have hccM : ¬(charAt (s ++ sp) i = '"' ∧
          ¬(1 ≤ i ∧ charAt (s ++ sp) (i - 1) = '\\')) := by
        rw [charAt_append_left s sp i hlt, charAt_append_left s sp (i - 1) (by omega)]
        exact hcc
      rw [process_quote_continue hccM, process_quote_continue hcc]

theorem step_extend {s sp : List Char} {cfg c2 : Config}
    (hsp : ∀ c ∈ sp, str_isspace c = true)
    (hlt : cfg.i < s.length) (hstep : splitStep s cfg = .ok c2) :
    splitStep (s ++ sp) cfg = .ok c2 := by
  obtain ⟨st, i, b, res⟩ := cfg
  simp only at hlt
  cases st
  · rw [splitStep_mk_SPACE, process_space_extend hlt, ← splitStep_mk_SPACE]
    exact hstep
  · rw [splitStep_mk_WORD, process_word_extend hlt, ← splitStep_mk_WORD]
    exact hstep
  · rw [splitStep_mk_QUOTES, process_quote_extend hsp hlt, ← splitStep_mk_QUOTES]
    exact hstep

theorem spaces_to_end {s sp : List Char} {res : List (List Char)}
    (hsp : ∀ c ∈ sp, str_isspace c = true) :
    splitLoop (s ++ sp) sp.length ⟨.SPACE, s.length, none, res⟩ = some (.ok res) := by
  have h := space_run sp s [] sp.length res hsp le_rfl
  rw [List.append_nil] at h
  rw [h, Nat.sub_self, splitLoop_exit (by simp)]
  simp [_split_finish]

theorem extend_exit {s sp : List Char} {cfg : Config} {v : List (List Char)}
    (hsp : ∀ c ∈ sp, str_isspace c = true)
    (hinv : split_invariant cfg)
    (hwn : cfg.state = .WORD → cfg.begin_word = none → cfg.i < s.length)
    (hile : cfg.i ≤ s.length)
    (hnl : ¬ cfg.i < s.length)
    (hfin : _split_finish s cfg = .ok v) :
    ∃ f2, splitLoop (s ++ sp) f2 cfg = some (.ok v) := by
  obtain ⟨st, i, b, res⟩ := cfg
  simp only at hile hnl hwn
  have hieq : i = s.length := by omega
  subst hieq
  cases st with
  | QUOTES =>
    exfalso
    simp [_split_finish] at hfin
  | SPACE =>
    have hbn : b = none := hinv.1 rfl
    subst hbn
    have hv : v = res := by
      simp [_split_finish] at hfin
      exact hfin.symm
    subst hv
    exact ⟨sp.length, spaces_to_end hsp⟩
  | WORD =>
    cases b with
    | none => exact absurd (hwn rfl rfl) hnl
    | some bw =>
      unfold _split_finish at hfin
      rw [if_neg (by simp)] at hfin
      simp only at hfin
      rcases hm : _make_word s bw s.length with e | w <;> rw [hm] at hfin <;>
        simp [Except.map] at hfin
      cases sp with
      | nil =>
        refine ⟨0, ?_⟩
        rw [List.append_nil, splitLoop_exit hnl]
        unfold _split_finish
        rw [if_neg (by simp)]
        simp only
        rw [hm]
        simp [Except.map, hfin]
      | cons c0 sp2 =>
        have hstep : StepRel (s ++ c0 :: sp2) ⟨.WORD, s.length, some bw, res⟩
            ⟨.SPACE, s.length, none, res ++ [w]⟩ := by
          refine ⟨by simp, ?_⟩
          rw [splitStep_mk_WORD]
          have hc0 : charAt (s ++ c0 :: sp2) s.length = c0 := by
            rw [← Nat.add_zero s.length, charAt_append_right]
            rfl
          rw [process_word_some_space (by rw [hc0]; exact hsp c0 (by simp))]
          rw [make_word_extend le_rfl, hm]
          simp [Except.map]
        refine ⟨(c0 :: sp2).length + 1, ?_⟩
        rw [splitLoop_of_step hstep, spaces_to_end (fun c hc => hsp c hc), hfin]
  
theorem extend_run : ∀ (fuel : Nat) (s sp : List Char) (cfg : Config)
    (v : List (List Char)),
    (∀ c ∈ sp, str_isspace c = true) →
    cfg.i ≤ s.length →
    split_invariant cfg →
    (cfg.state = .WORD → cfg.begin_word = none → cfg.i < s.length) →
    splitLoop s fuel cfg = some (.ok v) →
    ∃ f2, splitLoop (s ++ sp) f2 cfg = some (.ok v) := by
  intro fuel
  induction fuel with
  | zero =>
    intro s sp cfg v hsp hile hinv hwn hrun
    by_cases hlt : cfg.i < s.length
    · rw [splitLoop_zero_none hlt] at hrun
      exact Option.noConfusion hrun
    · rw [splitLoop_exit hlt] at hrun
      exact extend_exit hsp hinv hwn hile hlt ((Option.some.injEq _ _).mp hrun)
  | succ f ih =>
    intro s sp cfg v hsp hile hinv hwn hrun
    by_cases hlt : cfg.i < s.length
    · rw [splitLoop_succ_of_lt hlt] at hrun
      rcases hstep : splitStep s cfg with e | c2
      · rw [hstep] at hrun
        simp at hrun
      · rw [hstep] at hrun
        simp only at hrun
        obtain ⟨f2, h2⟩ := ih s sp c2 v hsp (step_i_le hlt hstep)
          (step_preserves_inv hinv hstep) (step_word_none_lt hlt hstep) hrun
        refine ⟨f2 + 1, ?_⟩
        have hstepM : StepRel (s ++ sp) cfg c2 :=
          ⟨by simp; omega, step_extend hsp hlt hstep⟩
        rw [splitLoop_of_step hstepM]
        exact h2
    · rw [splitLoop_exit hlt] at hrun
      exact extend_exit hsp hinv hwn hile hlt ((Option.some.injEq _ _).mp hrun)

/-! ### Insertion lemmas: whitespace inserted at a between-tokens point -/

theorem cond_insert {s1 sp s2 : List Char} (i2 : Nat)
    (hsp : ∀ c ∈ sp, str_isspace c = true) (hsp0 : sp ≠ [])
    (hle : i2 ≤ s1.length)
    (ho : ¬(i2 < (s1 ++ s2).length ∧ ¬ str_isspace (charAt (s1 ++ s2) i2) = true)) :
    ¬(i2 < (s1 ++ (sp ++ s2)).length ∧
        ¬ str_isspace (charAt (s1 ++ (sp ++ s2)) i2) = true) := by
  rcases Nat.lt_or_ge i2 s1.length with hlt | hge
  · intro hx
    refine ho ⟨by simp; omega, ?_⟩
    rw [charAt_append_left s1 s2 i2 hlt]
    rw [charAt_append_left s1 (sp ++ s2) i2 hlt] at hx
    exact hx.2
  · have hi2 : i2 = s1.length := by omega
    subst hi2
    obtain ⟨c0, sp2, rfl⟩ : ∃ c0 sp2, sp = c0 :: sp2 := by
      cases sp with
      | nil => exact absurd rfl hsp0
      | cons c0 sp2 => exact ⟨c0, sp2, rfl⟩
    have hch : charAt (s1 ++ (c0 :: sp2 ++ s2)) s1.length = c0 := by
      rw [← Nat.add_zero s1.length, charAt_append_right]
      rfl
    intro hx
    exact hx.2 (by rw [hch]; exact hsp c0 (by simp))

theorem process_quote_insert {s1 sp s2 : List Char} {i : Nat} {b : Option Nat}
    {res : List (List Char)} {out : _State × Nat × Option Nat × List (List Char)}
    (hsp : ∀ c ∈ sp, str_isspace c = true) (hsp0 : sp ≠ [])
    (hlt : i < s1.length)
    (h : _process_quote_state (s1 ++ s2) i b res = .ok out) :
    _process_quote_state (s1 ++ (sp ++ s2)) i b res = .ok out := by
  have hc : charAt (s1 ++ s2) i = charAt s1 i := charAt_append_left s1 s2 i hlt
  have hcM : charAt (s1 ++ (sp ++ s2)) i = charAt s1 i :=
    charAt_append_left s1 (sp ++ s2) i hlt
  have hc1 : charAt (s1 ++ s2) (i - 1) = charAt s1 (i - 1) :=
    charAt_append_left s1 s2 (i - 1) (by omega)
  have hc1M : charAt (s1 ++ (sp ++ s2)) (i - 1) = charAt s1 (i - 1) :=
    charAt_append_left s1 (sp ++ s2) (i - 1) (by omega)
  cases b with
  | none =>
    by_cases hqc : charAt s1 i = '"'
    · rw [process_quote_none_quote (by rw [hc]; exact hqc)] at h
      rw [process_quote_none_quote (by rw [hcM]; exact hqc)]
      split at h
      · exact absurd h (by simp)
      · rw [if_neg (cond_insert (i + 1) hsp hsp0 (by omega) (by assumption))]
        exact h
    · rw [process_quote_none_open (by rw [hc]; exact hqc)] at h
      rw [process_quote_none_open (by rw [hcM]; exact hqc)]
      exact h
  | some b0 =>
    by_cases hcc : charAt s1 i = '"' ∧ ¬(1 ≤ i ∧ charAt s1 (i - 1) = '\\')
    · rw [process_quote_close (by rw [hc]; exact hcc.1)
        (by rw [hc1]; exact hcc.2)] at h
      rw [process_quote_close (by rw [hcM]; exact hcc.1)
        (by rw [hc1M]; exact hcc.2)]
      rw [make_word_extend (by omega : i ≤ s1.length)] at h
      rw [make_word_extend (by omega : i ≤ s1.length)]
      rcases hm : _make_word s1 b0 i with e | w <;> rw [hm] at h
      · exact absurd h (by simp [Except.bind])
      · simp only [Except.bind] at h ⊢
        split at h
        · exact absurd h (by simp)
        · rw [if_neg (cond_insert (i + 1) hsp hsp0 (by omega) (by assumption))]
          exact h
    · rw [process_quote_continue (by rw [hc, hc1]; exact hcc)] at h
      rw [process_quote_continue (by rw [hcM, hc1M]; exact hcc)]
      exact h

theorem word_no_return {string : List Char} {n : Nat} {b : Option Nat}
    {res : List (List Char)} {tgt : Config}
    (htgt : tgt.i ≤ n) (htgts : tgt.state = .SPACE)
    (hchar : str_isspace (charAt string n) = false)
    (hch : Reaches string ⟨.WORD, n, b, res⟩ tgt) : False := by
  rcases hch.cases_head with heq | ⟨d, hstep, hch2⟩
  · rw [← heq] at htgts
    exact absurd htgts (by simp)
  · have hp := splitStep_WORD hstep.2
    rcases process_word_i_inv hp with ⟨_, hi2⟩ | ⟨_, _, hsp2⟩
    · have := reaches_i_mono hch2
      rw [hi2] at this
      omega
    · rw [hsp2] at hchar
      exact absurd hchar (by simp)

/-- Inserting whitespace at a point that the scan reaches between tokens (in
the Space state with no pending span) preserves reachability of that point. -/
theorem reaches_insert {s1 sp s2 : List Char} {res0 : List (List Char)}
    (hsp : ∀ c ∈ sp, str_isspace c = true)
    (h : Reaches (s1 ++ s2) initConfig ⟨.SPACE, s1.length, none, res0⟩) :
    Reaches (s1 ++ (sp ++ s2)) initConfig ⟨.SPACE, s1.length, none, res0⟩ := by
  by_cases hspne : sp = []
  · subst hspne
    simpa using h
  · have hmain : ∀ (a0 : Config),
        Reaches (s1 ++ s2) a0 ⟨.SPACE, s1.length, none, res0⟩ →
        Reaches (s1 ++ (sp ++ s2)) a0 ⟨.SPACE, s1.length, none, res0⟩ := by
      intro a0 h2
      induction h2 using Relation.ReflTransGen.head_induction_on with
      | refl => exact .refl
      | head hstep hchain ihm =>
        rename_i a c
        have hci : c.i ≤ s1.length := by
          have := reaches_i_mono hchain
          simpa using this
        have hai : a.i ≤ s1.length := le_trans (splitStep_i_mono hstep.2) hci
        refine Relation.ReflTransGen.head ⟨?_, ?_⟩ ihm
        · have h1 := hstep.1
          simp at h1 ⊢
          omega
        · -- mirror the step on the widened string
          rcases Nat.lt_or_ge a.i s1.length with halt | hage
          · obtain ⟨st, i, b, res⟩ := a
            simp only at halt
            cases st
            · have hc2 := splitStep_SPACE hstep.2
              rw [splitStep_mk_SPACE, process_space_extend halt,
                ← @process_space_extend s1 s2 i halt, ← splitStep_mk_SPACE]
              exact hstep.2
            · rw [splitStep_mk_WORD, process_word_extend halt,
                ← @process_word_extend s1 s2 i b res halt, ← splitStep_mk_WORD]
              exact hstep.2
            · have hp := splitStep_QUOTES hstep.2
              rw [splitStep_mk_QUOTES, process_quote_insert hsp hspne halt hp]
              obtain ⟨cst, ci, cb, cres⟩ := c
              rfl
          · have haeq : a.i = s1.length := by omega
            obtain ⟨st, i, b, res⟩ := a
            simp only at haeq
            subst haeq
            cases st
            · -- SPACE at the boundary: the original step must re-dispatch into
              -- WORD at the same index, but from there the target is unreachable
              exfalso
              have hc2 := splitStep_SPACE hstep.2
              by_cases hqc : charAt (s1 ++ s2) s1.length = '"'
              · rw [process_space_quote hqc] at hc2
                rw [hc2] at hci
                simp at hci
              · by_cases hss : str_isspace (charAt (s1 ++ s2) s1.length) = true
                · rw [process_space_space hqc hss] at hc2
                  rw [hc2] at hci
                  simp at hci
                · rw [process_space_word hqc (by simpa using hss)] at hc2
                  rw [hc2] at hchain
                  exact word_no_return (by simp) (by simp) (by simpa using hss) hchain
            · cases b with
              | none =>
                exfalso
                have hp := splitStep_WORD hstep.2
                rw [process_word_none] at hp
                rcases ha : _accept_word_char (s1 ++ s2) s1.length with e | jj <;>
                  rw [ha] at hp
                · exact absurd hp (by simp [Except.map])
                · have hjj := accept_inv ha
                  simp [Except.map] at hp
                  have : c.i = jj := by
                    obtain ⟨cst, ci, cb, cres⟩ := c
                    simp only at hp ⊢
                    exact hp.2.1.symm
                  omega
              | some bw =>
                have hp := splitStep_WORD hstep.2
                by_cases hss : str_isspace (charAt (s1 ++ s2) s1.length) = true
                · rw [process_word_some_space hss] at hp
                  rw [make_word_extend le_rfl] at hp
                  rcases hm : _make_word s1 bw s1.length with e | w <;> rw [hm] at hp
                  · exact absurd hp (by simp [Except.map])
                  · simp only [Except.map, Except.ok.injEq, Prod.mk.injEq] at hp
                    rw [splitStep_mk_WORD]
                    have hchM : charAt (s1 ++ (sp ++ s2)) s1.length = charAt sp 0 := by
                      rcases sp with _ | ⟨d0, sp3⟩
                      · exact absurd rfl hspne
                      · rw [← Nat.add_zero s1.length, charAt_append_right]
                        rfl
                    have hspM : str_isspace (charAt (s1 ++ (sp ++ s2)) s1.length) = true := by
                      rw [hchM]
                      rcases sp with _ | ⟨d0, sp3⟩
                      · exact absurd rfl hspne
                      · exact hsp d0 (by simp)
                    rw [process_word_some_space hspM, make_word_extend le_rfl, hm]
                    obtain ⟨cst, ci, cb, cres⟩ := c
                    simp only at hp
                    simp [Except.map, Config.mk.injEq, hp.1, hp.2.1, hp.2.2.1, hp.2.2.2]
                · exfalso
                  rw [process_word_some_nonspace (by simpa using hss)] at hp
                  rcases ha : _accept_word_char (s1 ++ s2) s1.length with e | jj <;>
                    rw [ha] at hp
                  · exact absurd hp (by simp [Except.map])
                  · have hjj := accept_inv ha
                    simp [Except.map] at hp
                    have : c.i = jj := by
                      obtain ⟨cst, ci, cb, cres⟩ := c
                      simp only at hp ⊢
                      exact hp.2.1.symm
                    omega
            · exfalso
              have hp := splitStep_QUOTES hstep.2
              have := process_quote_i_inv hp
              obtain ⟨cst, ci, cb, cres⟩ := c
              simp only at this hci
              omega

    exact hmain initConfig h

theorem initConfig_invariant : split_invariant initConfig := by
  constructor
  · intro _
    rfl
  · intro b0 hb0
    simp [initConfig] at hb0

theorem split_ok_loop {s : List Char} {res : List (List Char)}
    (h : split s = .ok res) :
    splitLoop s (2 * s.length + 1) initConfig = some (.ok res) := by
  unfold split at h
  rcases ho : splitLoop s (2 * s.length + 1) initConfig with _ | r
  · rw [ho] at h
    simp at h
  · rw [ho] at h
    simpa using h

theorem split_pad {sp1 sp2 s : List Char} {res : List (List Char)}
    (hsp1 : ∀ c ∈ sp1, str_isspace c = true)
    (hsp2 : ∀ c ∈ sp2, str_isspace c = true)
    (hok : split s = .ok res) : split (sp1 ++ s ++ sp2) = .ok res := by
  have hrun := split_ok_loop hok
  obtain ⟨f2, h2⟩ := extend_run (2 * s.length + 1) s sp2 initConfig res hsp2
    (by simp [initConfig]) initConfig_invariant (fun h => nomatch h) hrun
  have hshift := shift_run f2 [] sp1 (s ++ sp2) 0 .SPACE none [] res
    (fun h => nomatch h) (fun h => nomatch h) (fun k hk => nomatch hk)
    (by simpa [initConfig] using h2)
  simp only [Nat.add_zero, Option.map_none'] at hshift
  have hsr := space_run sp1 [] (s ++ sp2) (f2 + sp1.length) [] hsp1 (by omega)
  simp only [List.nil_append, List.length_nil, Nat.zero_add,
    Nat.add_sub_cancel] at hsr
  rw [List.append_assoc]
  have hfin : splitLoop (sp1 ++ (s ++ sp2)) (f2 + sp1.length)
      (⟨.SPACE, 0, none, []⟩ : Config) = some (.ok res) := by
    rw [hsr]
    exact hshift
  exact split_eq_of_loop hfin

theorem split_insert {s1 s2 sp : List Char} {res0 res : List (List Char)}
    (hsp : ∀ c ∈ sp, str_isspace c = true)
    (hreach : Reaches (s1 ++ s2) initConfig ⟨.SPACE, s1.length, none, res0⟩)
    (hok : split (s1 ++ s2) = .ok res) : split (s1 ++ sp ++ s2) = .ok res := by
  have hrun := split_ok_loop hok
  obtain ⟨f2, _, hrun2⟩ := reaches_run_exists hreach hrun
  have hshift := shift_run f2 s1 (s1 ++ sp) s2 0 .SPACE none res0 res
    (fun h => nomatch h) (fun h => nomatch h) (fun k hk => nomatch hk)
    (by simpa using hrun2)
  simp only [Nat.add_zero, Option.map_none', List.append_assoc,
    List.length_append] at hshift
  have hsr := space_run sp s1 s2 (f2 + sp.length) res0 hsp (by omega)
  simp only [Nat.add_sub_cancel] at hsr
  have hfromtgt : splitLoop (s1 ++ (sp ++ s2)) (f2 + sp.length)
      ⟨.SPACE, s1.length, none, res0⟩ = some (.ok res) := by
    rw [show s1 ++ (sp ++ s2) = s1 ++ sp ++ s2 from (List.append_assoc s1 sp s2).symm]
    rw [hsr]
    rw [show s1 ++ sp ++ s2 = s1 ++ (sp ++ s2) from List.append_assoc s1 sp s2]
    exact hshift
  have hchain2 := reaches_insert hsp hreach
  obtain ⟨F2, hF⟩ := reaches_run_prepend hchain2 hfromtgt
  rw [List.append_assoc]
  exact split_eq_of_loop hF

/-! ### Claim theorems -/

/-- Claim C1 (code bug): the position carried in an escape error is
`begin + offset-within-the-partially-collapsed-word`, not the absolute
offset of the offending character in the original input.  On the input
backslash-backslash-backslash-q the offending characters are the backslash
at index 2 and the escaped letter q at index 3, yet the reported position is
2, because the already-collapsed first escape pair shifted the word by one. -/
theorem c1_collapsed_escape_position :
    split ['\\', '\\', '\\', 'q'] = .error (.escapeErrorIllegal 'q' 2) ∧
    charAt ['\\', '\\', '\\', 'q'] 3 = 'q' ∧
    charAt ['\\', '\\', '\\', 'q'] 2 = '\\' := by
  refine ⟨by rfl, by rfl, by rfl⟩

/-- Claim C2: each malformed input raises its specific error kind, and the
five kinds are pairwise distinct values: `the quick "brown fox` raises
the unterminated-quote error, `the qu"ck brown fox` raises the
unexpected-quote-in-word error, `the quick "brown"fox` raises the
missing-space-after-quote error, `the \quick brown fox` raises the
illegal-escape error on `q` (at position 5), and `the quick brown fox\`
raises the dangling-escape error (at position 19). -/
theorem c2_error_kinds :
    split (("the quick \"brown fox").toList) = .error .quoteErrorNotClosed ∧
    split (("the qu\"ck brown fox").toList) = .error (.invalidAcceptError '"' 6) ∧
    split (("the quick \"brown\"fox").toList) = .error .quoteErrorNoSpace ∧
    split (("the \\quick brown fox").toList) = .error (.escapeErrorIllegal 'q' 5) ∧
    split (("the quick brown fox\\").toList) = .error (.escapeErrorDangling 19) ∧
    ([SplitStringError.quoteErrorNotClosed, .invalidAcceptError '"' 6,
      .quoteErrorNoSpace, .escapeErrorIllegal 'q' 5,
      .escapeErrorDangling 19]).Nodup := by
  refine ⟨by rfl, by rfl, by rfl, by rfl, by rfl, by decide⟩

/-- Claim C3: the decode transform applied to every emitted raw token body
(`_make_word`, shared by bare words and quoted bodies) agrees with the
left-to-right Unescaper of the spec: same decoded output on success, and the
same error kind (illegal escape with the same character, or dangling escape)
on failure. -/
theorem c3_unescape_refinement : ∀ (string : List Char) (b0 e : Nat),
    (_make_word string b0 e).mapError escKindOf =
      (unescape_spec ((string.take e).drop b0)).mapError some :=
  make_word_unescape

/-- Claim C10: in a bare word, a quote character is accepted whenever the raw
character immediately before it is a backslash — even when that backslash is
itself the second character of an escaped backslash pair, as in the input
q u backslash backslash quote, which splits to the single word
q u backslash quote. -/
theorem c10_escaped_quote_in_word :
    (∀ (string : List Char) (i : Nat), charAt string i = '"' → 1 ≤ i →
        charAt string (i - 1) = '\\' → _accept_word_char string i = .ok (i + 1)) ∧
    split ['q', 'u', '\\', '\\', '"'] = .ok [['q', 'u', '\\', '"']] := by
  constructor
  · intro string i hc hi hprev
    unfold _accept_word_char
    rw [hc]
    rw [if_neg (by simp [str_isspace, hi, hprev])]
  · rfl

theorem c10_witness :
    _accept_word_char ['\\', '"'] 1 = .ok 2 :=
  c10_escaped_quote_in_word.1 ['\\', '"'] 1 (by rfl) (by omega) (by rfl)

/-- Claim C7: quoted regions group into one word, and the empty quoted token
emits an empty string — in the middle, at the start, and at the end of the
input. -/
theorem c7_quote_grouping :
    split (("the quick \"brown fox\"").toList) =
      .ok [("the").toList, ("quick").toList, ("brown fox").toList] ∧
    split (("the \"\" quick").toList) =
      .ok [("the").toList, [], ("quick").toList] ∧
    split (("\"\" the quick").toList) =
      .ok [[], ("the").toList, ("quick").toList] ∧
    split (("the quick \"\"").toList) =
      .ok [("the").toList, ("quick").toList, []] := by
  refine ⟨by rfl, by rfl, by rfl, by rfl⟩

/-- Claim C4: while scanning an open quoted span, a quote character ends the
quoted region (the step does not simply continue in the Quotes state) if and
only if the immediately preceding character is not a backslash — exactly a
single-character lookback; consequently `the quick "brown fox\""` splits to
`the`, `quick`, and `brown fox` followed by a literal quote. -/
theorem c4_quote_close_single_lookback :
    (∀ (string : List Char) (i b0 : Nat) (res : List (List Char)),
        charAt string i = '"' →
        (_process_quote_state string i (some b0) res ≠
            .ok (.QUOTES, i + 1, some b0, res) ↔
          ¬(1 ≤ i ∧ charAt string (i - 1) = '\\'))) ∧
    split (("the quick \"brown fox\\\"\"").toList) =
      .ok [("the").toList, ("quick").toList, ("brown fox\"").toList] := by
  constructor
  · intro string i b0 res hq
    by_cases he : 1 ≤ i ∧ charAt string (i - 1) = '\\'
    · rw [process_quote_continue (fun hc => hc.2 he)]
      simp [he]
    · rw [process_quote_close hq he]
      simp only [he, not_false_iff, iff_true]
      rcases hm : _make_word string b0 i with e | w
      · simp [Except.bind]
      · simp only [Except.bind]
        split <;> simp
  · rfl

theorem c4_witness :
    (_process_quote_state ['a', '"'] 1 (some 0) [] ≠
        .ok (.QUOTES, 2, some 0, []) ↔
      ¬(1 ≤ 1 ∧ charAt ['a', '"'] 0 = '\\')) :=
  c4_quote_close_single_lookback.1 ['a', '"'] 1 0 [] (by rfl)

/-- Claim C5 (counterexample): the round-trip property fails as stated for
the sequence consisting of one empty word — the empty word contains no
whitespace, quote, or backslash character, yet joining gives the empty
string, which splits to the empty sequence, not to the one-element
sequence. -/
theorem c5_round_trip_counterexample :
    (∀ c ∈ ([] : List Char), plain_char c) ∧
    join_words [([] : List Char)] = [] ∧
    split (join_words [([] : List Char)]) = .ok [] ∧
    split (join_words [([] : List Char)]) ≠ .ok [([] : List Char)] := by
  refine ⟨by simp, rfl, by rfl, by decide⟩

/-- Claim C5 (amended): for every sequence of nonempty words in which no word
contains a whitespace, quote, or backslash character, joining the words with
single spaces and splitting again returns exactly the original sequence. -/
theorem c5_round_trip_nonempty : ∀ ws : List (List Char),
    (∀ w ∈ ws, w ≠ [] ∧ ∀ c ∈ w, plain_char c) →
    split (join_words ws) = .ok ws := by
  intro ws hws
  have h := split_join ws [] [] (2 * (join_words ws).length + 1) hws le_rfl
  simp only [List.nil_append, List.length_nil] at h
  exact split_eq_of_loop h

theorem c5_witness :
    split (join_words [['a'], ['b', 'c']]) = .ok [['a'], ['b', 'c']] :=
  c5_round_trip_nonempty [['a'], ['b', 'c']] (by
    intro w hw
    fin_cases hw
    · refine ⟨by simp, ?_⟩
      intro c hc
      fin_cases hc
      exact ⟨by decide, by decide, by decide⟩
    · refine ⟨by simp, ?_⟩
      intro c hc
      fin_cases hc
      · exact ⟨by decide, by decide, by decide⟩
      · exact ⟨by decide, by decide, by decide⟩)

/-- Claim C8: at every top-of-loop point reachable in a `split` call, the
pending span `begin_word` is unset in the Space state, and whenever it is set
the state is Word or Quotes and at least one character of the span has been
consumed (the span start lies strictly before the cursor); the two
begin-unset sub-states of Word and Quotes are exactly the just-entered-word
and just-opened-quote exceptions. -/
theorem c8_pending_span_invariant : ∀ (string : List Char) (c : Config),
    Reaches string initConfig c → split_invariant c :=
  fun _ _ h => reaches_invariant h

theorem c8_witness : split_invariant ⟨.WORD, 0, none, []⟩ :=
  c8_pending_span_invariant (("ab").toList) ⟨.WORD, 0, none, []⟩
    (Relation.ReflTransGen.single ⟨by decide, by rfl⟩)

/-- Claim C9: `split` terminates on every input: with fuel `2 * length + 1`
the scan loop always completes (the measure `2 * (length - i) + delta`
strictly decreases at every iteration, so the loop is bounded by the input
length), and the cursor never moves backward in any step. -/
theorem c9_split_terminates :
    (∀ string : List Char,
        splitLoop string (2 * string.length + 1) initConfig ≠ none) ∧
    (∀ (string : List Char) (c c2 : Config),
        splitStep string c = .ok c2 → c.i ≤ c2.i) := by
  constructor
  · intro string
    have h := @splitLoop_isSome string (2 * string.length + 1)
      initConfig (initFuel_enough string)
    intro hn
    rw [hn] at h
    simp at h
  · intro string c c2 h
    exact splitStep_i_mono h

theorem c9_witness :
    splitLoop (("ab").toList) (2 * ("ab").toList.length + 1) initConfig ≠ none ∧
    (initConfig.i ≤ (⟨.WORD, 0, none, []⟩ : Config).i) :=
  ⟨c9_split_terminates.1 (("ab").toList),
   c9_split_terminates.2 (("ab").toList) initConfig ⟨.WORD, 0, none, []⟩ (by rfl)⟩

/-- Claim C6: whitespace idempotence. (1) Adding any leading and trailing
whitespace around an input that splits successfully leaves the output
sequence unchanged. (2) Multiplying whitespace between tokens: inserting
extra whitespace at any point the scan reaches in the Space state with no
pending span (i.e. between tokens) leaves a successful output unchanged.
(3) The claim's example: `split "  a   b  "` and `split "a b"` both yield
`["a", "b"]`. -/
theorem c6_whitespace_idempotence :
    (∀ (sp1 sp2 s : List Char) (res : List (List Char)),
        (∀ c ∈ sp1, str_isspace c = true) →
        (∀ c ∈ sp2, str_isspace c = true) →
        split s = .ok res → split (sp1 ++ s ++ sp2) = .ok res) ∧
    (∀ (s1 s2 sp : List Char) (res0 res : List (List Char)),
        (∀ c ∈ sp, str_isspace c = true) →
        Reaches (s1 ++ s2) initConfig ⟨.SPACE, s1.length, none, res0⟩ →
        split (s1 ++ s2) = .ok res → split (s1 ++ sp ++ s2) = .ok res) ∧
    split (("  a   b  ").toList) = .ok [("a").toList, ("b").toList] ∧
    split (("a b").toList) = .ok [("a").toList, ("b").toList] := by
  refine ⟨?_, ?_, by rfl, by rfl⟩
  · intro sp1 sp2 s res hsp1 hsp2 hok
    exact split_pad hsp1 hsp2 hok
  · intro s1 s2 sp res0 res hsp hreach hok
    exact split_insert hsp hreach hok

theorem c6_witness :
    split (([' '] : List Char) ++ ['a'] ++ [' ']) = .ok [['a']] ∧
    split ((['a', ' '] : List Char) ++ [' '] ++ ['b']) = .ok [['a'], ['b']] := by
  constructor
  · exact c6_whitespace_idempotence.1 [' '] [' '] ['a'] [['a']]
      (by decide) (by decide) (by rfl)
  · have h1 : StepRel (['a', ' '] ++ ['b']) initConfig ⟨.WORD, 0, none, []⟩ :=
      ⟨by decide, by rfl⟩
    have h2 : StepRel (['a', ' '] ++ ['b']) ⟨.WORD, 0, none, []⟩
        ⟨.WORD, 1, some 0, []⟩ := ⟨by decide, by rfl⟩
    have h3 : StepRel (['a', ' '] ++ ['b']) ⟨.WORD, 1, some 0, []⟩
        ⟨.SPACE, 1, none, [['a']]⟩ := ⟨by decide, by rfl⟩
    have h4 : StepRel (['a', ' '] ++ ['b']) ⟨.SPACE, 1, none, [['a']]⟩
        ⟨.SPACE, 2, none, [['a']]⟩ := ⟨by decide, by rfl⟩
    exact c6_whitespace_idempotence.2.1 ['a', ' '] ['b'] [' '] [['a']]
      [['a'], ['b']] (by decide)
      (Relation.ReflTransGen.head h1 (Relation.ReflTransGen.head h2
        (Relation.ReflTransGen.head h3 (Relation.ReflTransGen.head h4
          Relation.ReflTransGen.refl))))
      (by rfl)
